import Mathlib

/-!
# Constant-time MPI helper functions of libgcrypt

A shallow embedding of `mpi/mpih-const-time.c`, and of the version check of
`src/global.c`.

* A limb (`mpi_limb_t`) is a natural number below `2 ^ w`, where `w` is the
  limb width `BITS_PER_MPI_LIMB` (a parameter of every definition: the header
  that fixes it is not part of the sources at hand).  Every wraparound
  operation of the C code carries its `% 2 ^ w` explicitly.
* Memory is limb addressed: `Mem` gives the limb stored at each address and a
  pointer (`mpi_ptr_t`) is an address.  A C function that writes through its
  pointer arguments becomes a function from the memory before the call to the
  memory after it (paired with the returned scalar when there is one), so
  that a destination that aliases a source is the same address passed twice.
* A `for (i = 0; i < n; i++)` loop is `forLoop`.
* Sizes and loop counters (`mpi_size_t`, `unsigned int`) are natural numbers:
  the buffers are taken small enough for the C counters not to wrap.
* `_gcry_mpih_mod` calls three things that are declared outside this source
  file: `MPN_ZERO`, `_gcry_mpih_lshift` and `_gcry_mpih_sub_n`.  They are given
  by their reference behaviour on values.  The memory class of the buffer it
  allocates (`secure`) has no effect on the limbs and is left out.

* `_gcry_mpih_cmp_ui` returns an `int` computed from unsigned operands: the
  widths of `unsigned long` and of `int` are parameters next to `w`.
* The functions of `global.c` work on C strings, which are lists of characters
  here; `VERSION` is a parameter and `int` arithmetic wraps around.
* For the claims on data-independent execution the functions are embedded a
  second time with the trace of their primitive operations (`Traced`).

The theorems on the conditional operations quantify over a memory `m` whose
cells are all limbs (`LimbsOk w m`) and over the addresses of the arrays.  An
array `U` of `n` limbs at address `up` is `limbs m up n` and the number it
stands for is `valueAt w m up n`.  A hypothesis such as
`wp ≤ up ∨ up + n ≤ wp` says that the destination `W` is `U` itself, or lies
below it, or starts after its end: the cases in which no limb of `U` is
overwritten before the loop has read it.
-/

namespace Libgcrypt

/-! ## Memory, limb arrays and their values -/

/-- Limb-addressed memory: `read a` is the limb stored at address `a`. -/
structure Mem where
  read : Nat → Nat

instance : CoeFun Mem (fun _ => Nat → Nat) := ⟨Mem.read⟩

/-- The assignment `p[0] = v` for the address `a` of `p[0]`. -/
def write (m : Mem) (a v : Nat) : Mem :=
  ⟨fun b => if b = a then v else m b⟩

/-- Every cell of the memory holds a limb of `w` bits. -/
def LimbsOk (w : Nat) (m : Mem) : Prop :=
  ∀ a, m a < 2 ^ w

/-- The limb array `p[0], ..., p[n-1]`, least significant limb first. -/
def limbs (m : Mem) (p n : Nat) : List Nat :=
  (List.range n).map (fun i => m (p + i))

/-- The number a limb array stands for: least significant limb first, in
base `2 ^ w`. -/
def value (w : Nat) : List Nat → Nat
  | [] => 0
  | x :: xs => x + 2 ^ w * value w xs

/-- The number held by the `n` limbs at address `p`. -/
def valueAt (w : Nat) (m : Mem) (p n : Nat) : Nat :=
  value w (limbs m p n)

/-- A memory whose first cells hold the given limbs, and zero above them. -/
def memOfList (l : List Nat) : Mem :=
  ⟨fun a => l.getD a 0⟩

/-- The loop `for (i = 0; i < n; i++) s = body i s`, started in state `s`. -/
def forLoop {σ : Type} (body : Nat → σ → σ) (s : σ) : Nat → σ
  | 0 => s
  | n + 1 => body n (forLoop body s n)

/-! ## Word operations of the C code on `w`-bit limbs -/

/-- The sum `a + b` of two `mpi_limb_t`, wrapping around. -/
def limb_add (w a b : Nat) : Nat :=
  (a + b) % 2 ^ w

/-- The difference `a - b` of two `mpi_limb_t`, wrapping around. -/
def limb_sub (w a b : Nat) : Nat :=
  (a % 2 ^ w + 2 ^ w - b % 2 ^ w) % 2 ^ w

/-- The complement `~a` of an `mpi_limb_t`. -/
def limb_not (w a : Nat) : Nat :=
  2 ^ w - 1 - a % 2 ^ w

/-! ## The functions of mpih-const-time.c -/

/-- Source: `_gcry_mpih_set_cond (wp, up, usize, op_enable)`:
`W = U` when `op_enable` is 1, otherwise `W` keeps its old value. -/
def _gcry_mpih_set_cond (w : Nat) (m : Mem) (wp up usize op_enable : Nat) : Mem :=
  let mask := limb_sub w 0 op_enable
  forLoop (fun i (m : Mem) =>
    let x := mask &&& (m (wp + i) ^^^ m (up + i))
    write m (wp + i) (m (wp + i) ^^^ x)) m usize

/-- Source: `_gcry_mpih_add_n_cond (wp, up, vp, usize, op_enable)`:
`W = U + V` when `op_enable` is 1, otherwise `W = U`; returns the carry.
The loop state is the memory and `cy`. -/
def _gcry_mpih_add_n_cond (w : Nat) (m : Mem) (wp up vp usize op_enable : Nat) :
    Mem × Nat :=
  let mask := limb_sub w 0 op_enable
  forLoop (fun i (s : Mem × Nat) =>
    let m := s.1
    let cy := s.2
    let x := limb_add w (m (up + i)) (m (vp + i) &&& mask)
    let cy1 := if x < m (up + i) then 1 else 0
    let x := limb_add w x cy
    let cy2 := if x < cy then 1 else 0
    let cy := cy1 ||| cy2
    (write m (wp + i) x, cy)) (m, 0) usize

/-- Source: `_gcry_mpih_sub_n_cond (wp, up, vp, usize, op_enable)`:
`W = U - V` when `op_enable` is 1, otherwise `W = U`; returns the borrow.
The loop state is the memory and `cy`. -/
def _gcry_mpih_sub_n_cond (w : Nat) (m : Mem) (wp up vp usize op_enable : Nat) :
    Mem × Nat :=
  let mask := limb_sub w 0 op_enable
  forLoop (fun i (s : Mem × Nat) =>
    let m := s.1
    let cy := s.2
    let x := limb_sub w (m (up + i)) (m (vp + i) &&& mask)
    let cy1 := if x > m (up + i) then 1 else 0
    let cy2 := if x < cy then 1 else 0
    let x := limb_sub w x cy
    let cy := cy1 ||| cy2
    (write m (wp + i) x, cy)) (m, 0) usize

/-- Source: `_gcry_mpih_swap_cond (up, vp, usize, op_enable)`: swaps `U` and
`V` when `op_enable` is 1, otherwise no change.  The second assignment reads
`vp[i]` from the memory the first one has written. -/
def _gcry_mpih_swap_cond (w : Nat) (m : Mem) (up vp usize op_enable : Nat) : Mem :=
  let mask := limb_sub w 0 op_enable
  forLoop (fun i (m : Mem) =>
    let x := mask &&& (m (up + i) ^^^ m (vp + i))
    let m := write m (up + i) (m (up + i) ^^^ x)
    write m (vp + i) (m (vp + i) ^^^ x)) m usize

/-- The loop of `_gcry_mpih_abs_cond`.  The loop state is the memory and
`cy`, which starts as `op_enable`. -/
def abs_cond_loop (w : Nat) (m : Mem) (wp up usize op_enable : Nat) : Mem × Nat :=
  let mask := limb_sub w 0 op_enable
  forLoop (fun i (s : Mem × Nat) =>
    let m := s.1
    let cy := s.2
    let x := limb_add w (limb_not w (m (up + i))) cy
    let cy := if x < limb_not w (m (up + i)) then 1 else 0
    (write m (wp + i) (m (up + i) ^^^ (mask &&& (x ^^^ m (up + i)))), cy))
    (m, op_enable % 2 ^ w) usize

/-- Source: `_gcry_mpih_abs_cond (wp, up, usize, op_enable)`: `W = -U` when
`op_enable` is 1, otherwise `W = U`. -/
def _gcry_mpih_abs_cond (w : Nat) (m : Mem) (wp up usize op_enable : Nat) : Mem :=
  (abs_cond_loop w m wp up usize op_enable).1

/-! ## External primitives used by `_gcry_mpih_mod` -/

/-- The memory after the `n` limbs at `p` have been set to the `n` low limbs
of the number `v`. -/
def storeValue (w : Nat) (m : Mem) (p n v : Nat) : Mem :=
  ⟨fun a => if p ≤ a ∧ a < p + n then (v / 2 ^ (w * (a - p))) % 2 ^ w else m a⟩

/-- Modelled from the spec: `MPN_ZERO (d, n)` of mpi-internal.h, which is not
among the sources: "Zero-fill a Limb Array". -/
def MPN_ZERO (m : Mem) (d n : Nat) : Mem :=
  forLoop (fun i (m : Mem) => write m (d + i) 0) m n

/-- Modelled from the spec: `_gcry_mpih_lshift (wp, up, usize, cnt)`, which is
not among the sources: "logical left shift a limb array by N bits".  The
`usize` limbs at `wp` receive the low `usize` limbs of `U * 2 ^ cnt`; the bits
shifted out are the returned value. -/
def _gcry_mpih_lshift (w : Nat) (m : Mem) (wp up usize cnt : Nat) : Mem × Nat :=
  let v := valueAt w m up usize * 2 ^ cnt
  (storeValue w m wp usize v, v / 2 ^ (usize * w))

/-- Modelled from the spec: `_gcry_mpih_sub_n (wp, up, vp, usize)`, which is
not among the sources: "subtract one equal-length limb array from another,
return borrow".  The `usize` limbs at `wp` receive `U - V` modulo
`2 ^ (usize * w)`; the returned borrow is 1 exactly when `U < V`. -/
def _gcry_mpih_sub_n (w : Nat) (m : Mem) (wp up vp usize : Nat) : Mem × Nat :=
  let u := valueAt w m up usize
  let v := valueAt w m vp usize
  (storeValue w m wp usize (u + 2 ^ (usize * w) - v % 2 ^ (usize * w)),
    if u < v then 1 else 0)

/-- The body of the loop of `_gcry_mpih_mod`, for the loop counter `i`.  The
value the shift returns is dropped, as in the source; `mpih_add_n_cond` is the
short name of `_gcry_mpih_add_n_cond`. -/
def mod_loop_body (w rp vp vsize up usize i : Nat) (m : Mem) : Mem :=
  let j := vsize * w - 1 - i
  let limbno := j / w
  let bitno := j % w
  let limb := m (vp + limbno)
  let the_bit := if limb &&& ((1 <<< bitno) % 2 ^ w) ≠ 0 then 1 else 0
  let m := (_gcry_mpih_lshift w m rp rp usize 1).1
  let m := write m (rp + 0) (m (rp + 0) ||| the_bit)
  let r := _gcry_mpih_sub_n w m rp rp up usize
  let m := r.1
  let underflow := r.2
  (_gcry_mpih_add_n_cond w m rp rp up usize underflow).1

/-- Source: `_gcry_mpih_mod (vp, vsize, up, usize)`: computes `W = V % U` in a
buffer of `usize` limbs and returns it.  The address `rp` is the one
`mpi_alloc_limb_space (usize, secure)` returns (the allocator is not among the
sources); the result is the memory after the call, the returned pointer being
`rp`. -/
def _gcry_mpih_mod (w : Nat) (m : Mem) (rp vp vsize up usize : Nat) : Mem :=
  forLoop (mod_loop_body w rp vp vsize up usize) (MPN_ZERO m rp usize) (vsize * w)

/-! ## Value-level description of the reduction loop -/

/-- One iteration of the loop of `_gcry_mpih_mod` seen on values: `r` is the
value of `R`, `b` the bit injected, `u` the modulus and `N = 2 ^ (usize * w)`
the capacity of `R`. -/
def modStep (N u r b : Nat) : Nat :=
  if (2 * r) % N + b < u then (2 * r) % N + b else (2 * r) % N + b - u

/-- The value of `R` after `k` iterations of the loop of `_gcry_mpih_mod` on
the `t`-bit number `v`. -/
def modVal (N u v t : Nat) : Nat → Nat
  | 0 => 0
  | k + 1 => modStep N u (modVal N u v t k) ((v / 2 ^ (t - 1 - k)) % 2)

/-! ## The comparison `_gcry_mpih_cmp_ui` -/

/-- The loop `for (i = start; i < n; i++) s = body i s`, started in state
`s`. -/
def forLoopFrom {σ : Type} (body : Nat → σ → σ) (s : σ) (start : Nat) : Nat → σ
  | 0 => s
  | n + 1 => if start ≤ n then body n (forLoopFrom body s start n) else s

/-- The conversion of an unsigned value to an `int` of `iw` bits: the value is
reduced modulo `2 ^ iw` into the two's complement range. -/
def to_int (iw x : Nat) : Int :=
  if x % 2 ^ iw < 2 ^ (iw - 1) then ((x % 2 ^ iw : Nat) : Int)
  else ((x % 2 ^ iw : Nat) : Int) - 2 ^ iw

/-- Source: `_gcry_mpih_cmp_ui (up, usize, v)`.  The width `w` of `mpi_limb_t`,
the width `lw` of `unsigned long` and the width `iw` of `int` are parameters.
The difference `up[0] - v` is computed in the wider of the two unsigned types
and converted to the `int` that is returned. -/
def _gcry_mpih_cmp_ui (w lw iw : Nat) (m : Mem) (up usize v : Nat) : Int :=
  let is_all_zero := forLoopFrom (fun i (is_all_zero : Nat) =>
    is_all_zero &&& (if m (up + i) = 0 then 1 else 0)) 1 1 usize
  if is_all_zero ≠ 0 then
    to_int iw ((m (up + 0) + 2 ^ (max w lw) - v % 2 ^ (max w lw)) % 2 ^ (max w lw))
  else 1

/-! ## Version check of global.c

A C string is the list of its characters, the terminating NUL left out: `*s`
is the head of the list, or NUL at its end, and `s++` is the tail.  A function
that returns a pointer or `NULL` returns an `Option`. -/

/-- The character `*s` of a C string. -/
def deref (s : List Char) : Char :=
  s.headD (Char.ofNat 0)

/-- The C library's `isdigit`. -/
def isdigit (c : Char) : Bool :=
  decide ('0' ≤ c ∧ c ≤ '9')

/-- The value of an `int` expression after wraparound to `iw` bits.  (The C
code tests `val < 0` after the loop, so it counts on this wraparound.) -/
def wrap_int (iw : Nat) (x : Int) : Int :=
  to_int iw (x % 2 ^ iw).toNat

/-- The loop `for ( ; isdigit(*s); s++ ) { val *= 10; val += *s - '0'; }` of
`parse_version_number`: the final `val` and the final `s`. -/
def parse_digits (iw : Nat) : List Char → Int → Int × List Char
  | [], val => (val, [])
  | c :: cs, val =>
    if isdigit c then
      parse_digits iw cs (wrap_int iw (wrap_int iw (val * 10) + ((c.toNat : Int) - 48)))
    else (val, c :: cs)

/-- Source: `parse_version_number (s, &number)`: `none` for `NULL`, otherwise
the number stored and the pointer returned. -/
def parse_version_number (iw : Nat) (s : List Char) : Option (Int × List Char) :=
  if deref s = '0' ∧ isdigit (deref s.tail) = true then none
  else
    let r := parse_digits iw s 0
    if r.1 < 0 then none else some r

/-- Source: `parse_version_string (s, &major, &minor, &micro)`: `none` for
`NULL`, otherwise the three numbers stored and the pointer returned (the
patchlevel). -/
def parse_version_string (iw : Nat) (s : List Char) : Option (Int × Int × Int × List Char) :=
  match parse_version_number iw s with
  | none => none
  | some (major, s) =>
    if deref s ≠ '.' then none
    else
      match parse_version_number iw s.tail with
      | none => none
      | some (minor, s) =>
        if deref s ≠ '.' then none
        else
          match parse_version_number iw s.tail with
          | none => none
          | some (micro, s) => some (major, minor, micro, s)

/-- Modelled from the spec: the C library's `strcmp`, which is not among the
sources: zero for equal strings, otherwise the difference of the first two
characters that differ (a string that ends first has NUL there). -/
def strcmp : List Char → List Char → Int
  | [], [] => 0
  | [], c :: _ => 0 - (c.toNat : Int)
  | c :: _, [] => (c.toNat : Int)
  | a :: as, b :: bs => if a = b then strcmp as bs else (a.toNat : Int) - (b.toNat : Int)

/-- Source: `gcry_check_version (req_version)`.  The library's version string
`VERSION` comes from a header that is not among the sources and is a
parameter; `req_version` is `none` for `NULL`. -/
def gcry_check_version (iw : Nat) (ver : List Char) (req_version : Option (List Char)) :
    Option (List Char) :=
  match req_version with
  | none => some ver
  | some req =>
    match parse_version_string iw ver with
    | none => none
    | some (my_major, my_minor, my_micro, my_plvl) =>
      match parse_version_string iw req with
      | none => none
      | some (rq_major, rq_minor, rq_micro, rq_plvl) =>
        if my_major > rq_major
            ∨ (my_major = rq_major ∧ my_minor > rq_minor)
            ∨ (my_major = rq_major ∧ my_minor = rq_minor ∧ my_micro > rq_micro)
            ∨ (my_major = rq_major ∧ my_minor = rq_minor ∧ my_micro = rq_micro
                ∧ strcmp my_plvl rq_plvl ≥ 0) then
          some ver
        else none

/-- A run of decimal digits, possibly empty, that does not start with a zero
followed by a further digit. -/
def IsVersionNumber (d : List Char) : Prop :=
  (∀ c ∈ d, isdigit c = true) ∧ ¬ ∃ c cs, d = '0' :: c :: cs

/-- The strings of the form `<major>.<minor>.<micro>` followed by an optional
patchlevel suffix, each of the three numbers being an `IsVersionNumber`.  The
suffix does not start with a digit: the third number is the whole run of
digits after the second dot, as the first two are the whole runs before the
dots. -/
def VersionForm (s : List Char) : Prop :=
  ∃ d1 d2 d3 suffix, IsVersionNumber d1 ∧ IsVersionNumber d2 ∧ IsVersionNumber d3 ∧
    isdigit (deref suffix) = false ∧ s = d1 ++ '.' :: (d2 ++ '.' :: (d3 ++ suffix))

/-- The number that a run of decimal digits stands for (0 for the empty
run). -/
def decimalValue (d : List Char) : Nat :=
  d.foldl (fun v c => 10 * v + (c.toNat - 48)) 0

/-- The string `s` is the version `a.b.c` with patchlevel suffix `p`: it has
the form `<major>.<minor>.<micro>` followed by `p`, the three numbers being
`IsVersionNumber` runs that stand for `a`, `b` and `c`, and `p` does not start
with a digit. -/
def WritesVersion (s : List Char) (a b c : Nat) (p : List Char) : Prop :=
  ∃ d1 d2 d3, IsVersionNumber d1 ∧ IsVersionNumber d2 ∧ IsVersionNumber d3 ∧
    isdigit (deref p) = false ∧ s = d1 ++ '.' :: (d2 ++ '.' :: (d3 ++ p)) ∧
    decimalValue d1 = a ∧ decimalValue d2 = b ∧ decimalValue d3 = c

/-- The strings of the form `<major>.<minor>.<micro>` followed by an optional
patchlevel suffix, each of the three numbers being a non-empty
`IsVersionNumber`. -/
def StrictVersionForm (s : List Char) : Prop :=
  ∃ d1 d2 d3 suffix, (IsVersionNumber d1 ∧ d1 ≠ []) ∧ (IsVersionNumber d2 ∧ d2 ≠ []) ∧
    (IsVersionNumber d3 ∧ d3 ≠ []) ∧ s = d1 ++ '.' :: (d2 ++ '.' :: (d3 ++ suffix))

/-! ## Operation traces

The same functions once more, this time together with the trace of the
primitive operations they execute, for the claims on data-independent control
flow.  Every memory access shows in the trace with its address, every word
operation of the C source with its kind, every conditional (the loop tests
and the conditional expression of `_gcry_mpih_mod`) with its outcome, and
every call of a function that is not among the sources with its pointer and
size arguments.  The values computed are those of the definitions above. -/

/-- The kinds of word operation of the C source. -/
inductive Alu where
  | add
  | sub
  | mul
  | div
  | rem
  | and
  | or
  | xor
  | not
  | shl
  | lt
  | gt

/-- One entry of an execution trace. -/
inductive Op where
  | load (a : Nat)
  | store (a : Nat)
  | alu (o : Alu)
  | branch (taken : Bool)
  | call (name : String) (args : List Nat)

/-- A computation that yields a result and the trace of what it executed. -/
def Traced (α : Type) : Type :=
  α × List Op

/-- The computation that executes nothing. -/
def Traced.pure {α : Type} (a : α) : Traced α :=
  (a, [])

/-- Sequencing: the trace of `x` followed by the trace of `f` on its result. -/
def Traced.bind {α β : Type} (x : Traced α) (f : α → Traced β) : Traced β :=
  ((f x.1).1, x.2 ++ (f x.1).2)

instance : Monad Traced where
  pure := Traced.pure
  bind := Traced.bind

/-- The read `p[0]` at address `a`. -/
def t_load (m : Mem) (a : Nat) : Traced Nat :=
  (m a, [Op.load a])

/-- The assignment `p[0] = v` at address `a`. -/
def t_store (m : Mem) (a v : Nat) : Traced Mem :=
  (write m a v, [Op.store a])

/-- A word operation of kind `o` whose result is `v`. -/
def t_op {α : Type} (o : Alu) (v : α) : Traced α :=
  (v, [Op.alu o])

/-- A conditional on the condition `b`: a loop test or a conditional
expression. -/
def t_branch (b : Bool) : Traced Unit :=
  ((), [Op.branch b])

/-- The iterations of `for (i = 0; i < n; i++) s = body i s`: each one is the
loop test (which succeeds), the body and the increment. -/
def forLoopT {σ : Type} (body : Nat → σ → Traced σ) (s : σ) : Nat → Traced σ
  | 0 => pure s
  | n + 1 => do
    let s ← forLoopT body s n
    let c ← t_op Alu.lt true
    t_branch c
    let s ← body n s
    let _ ← t_op Alu.add (n + 1)
    pure s

/-- The loop `for (i = 0; i < n; i++) s = body i s`: its iterations and the
final loop test, which fails. -/
def forT {σ : Type} (body : Nat → σ → Traced σ) (s : σ) (n : Nat) : Traced σ := do
  let s ← forLoopT body s n
  let c ← t_op Alu.lt false
  t_branch c
  pure s

/-- Source: `_gcry_mpih_set_cond`, with its trace. -/
def _gcry_mpih_set_cond_tr (w : Nat) (m : Mem) (wp up usize op_enable : Nat) : Traced Mem := do
  let mask ← t_op Alu.sub (limb_sub w 0 op_enable)
  forT (fun i (m : Mem) => do
    let a ← t_load m (wp + i)
    let b ← t_load m (up + i)
    let ab ← t_op Alu.xor (a ^^^ b)
    let x ← t_op Alu.and (mask &&& ab)
    let a ← t_load m (wp + i)
    let r ← t_op Alu.xor (a ^^^ x)
    t_store m (wp + i) r) m usize

/-- Source: `_gcry_mpih_add_n_cond`, with its trace. -/
def _gcry_mpih_add_n_cond_tr (w : Nat) (m : Mem) (wp up vp usize op_enable : Nat) :
    Traced (Mem × Nat) := do
  let mask ← t_op Alu.sub (limb_sub w 0 op_enable)
  forT (fun i (s : Mem × Nat) => do
    let m := s.1
    let cy := s.2
    let u ← t_load m (up + i)
    let v ← t_load m (vp + i)
    let vm ← t_op Alu.and (v &&& mask)
    let x ← t_op Alu.add (limb_add w u vm)
    let u ← t_load m (up + i)
    let cy1 ← t_op Alu.lt (if x < u then 1 else 0)
    let x ← t_op Alu.add (limb_add w x cy)
    let cy2 ← t_op Alu.lt (if x < cy then 1 else 0)
    let cy ← t_op Alu.or (cy1 ||| cy2)
    let m ← t_store m (wp + i) x
    pure (m, cy)) (m, 0) usize

/-- Source: `_gcry_mpih_sub_n_cond`, with its trace. -/
def _gcry_mpih_sub_n_cond_tr (w : Nat) (m : Mem) (wp up vp usize op_enable : Nat) :
    Traced (Mem × Nat) := do
  let mask ← t_op Alu.sub (limb_sub w 0 op_enable)
  forT (fun i (s : Mem × Nat) => do
    let m := s.1
    let cy := s.2
    let u ← t_load m (up + i)
    let v ← t_load m (vp + i)
    let vm ← t_op Alu.and (v &&& mask)
    let x ← t_op Alu.sub (limb_sub w u vm)
    let u ← t_load m (up + i)
    let cy1 ← t_op Alu.gt (if x > u then 1 else 0)
    let cy2 ← t_op Alu.lt (if x < cy then 1 else 0)
    let x ← t_op Alu.sub (limb_sub w x cy)
    let cy ← t_op Alu.or (cy1 ||| cy2)
    let m ← t_store m (wp + i) x
    pure (m, cy)) (m, 0) usize

/-- Source: `_gcry_mpih_swap_cond`, with its trace. -/
def _gcry_mpih_swap_cond_tr (w : Nat) (m : Mem) (up vp usize op_enable : Nat) : Traced Mem := do
  let mask ← t_op Alu.sub (limb_sub w 0 op_enable)
  forT (fun i (m : Mem) => do
    let a ← t_load m (up + i)
    let b ← t_load m (vp + i)
    let ab ← t_op Alu.xor (a ^^^ b)
    let x ← t_op Alu.and (mask &&& ab)
    let a ← t_load m (up + i)
    let r ← t_op Alu.xor (a ^^^ x)
    let m ← t_store m (up + i) r
    let b ← t_load m (vp + i)
    let r ← t_op Alu.xor (b ^^^ x)
    t_store m (vp + i) r) m usize

/-- Source: `_gcry_mpih_abs_cond`, with its trace. -/
def _gcry_mpih_abs_cond_tr (w : Nat) (m : Mem) (wp up usize op_enable : Nat) : Traced Mem := do
  let mask ← t_op Alu.sub (limb_sub w 0 op_enable)
  let r ← forT (fun i (s : Mem × Nat) => do
    let m := s.1
    let cy := s.2
    let u ← t_load m (up + i)
    let nu ← t_op Alu.not (limb_not w u)
    let x ← t_op Alu.add (limb_add w nu cy)
    let u ← t_load m (up + i)
    let nu ← t_op Alu.not (limb_not w u)
    let cy ← t_op Alu.lt (if x < nu then 1 else 0)
    let u ← t_load m (up + i)
    let xu ← t_op Alu.xor (x ^^^ u)
    let mx ← t_op Alu.and (mask &&& xu)
    let u ← t_load m (up + i)
    let r ← t_op Alu.xor (u ^^^ mx)
    let m ← t_store m (wp + i) r
    pure (m, cy)) (m, op_enable % 2 ^ w) usize
  pure r.1

/-- Modelled from the spec: `MPN_ZERO (d, n)`, with its trace: one store for
each limb. -/
def MPN_ZERO_tr (m : Mem) (d n : Nat) : Traced Mem :=
  forT (fun i (m : Mem) => t_store m (d + i) 0) m n

/-- Modelled from the spec: `_gcry_mpih_lshift`, with its trace.  Its own
operations are not among the sources ("assumed already adequate at that
layer"): it shows as one call with its pointer, size and count arguments. -/
def _gcry_mpih_lshift_tr (w : Nat) (m : Mem) (wp up usize cnt : Nat) : Traced (Mem × Nat) :=
  (_gcry_mpih_lshift w m wp up usize cnt, [Op.call "_gcry_mpih_lshift" [wp, up, usize, cnt]])

/-- Modelled from the spec: `_gcry_mpih_sub_n`, with its trace.  Its own
operations are not among the sources ("assumed already adequate at that
layer"): it shows as one call with its pointer and size arguments. -/
def _gcry_mpih_sub_n_tr (w : Nat) (m : Mem) (wp up vp usize : Nat) : Traced (Mem × Nat) :=
  (_gcry_mpih_sub_n w m wp up vp usize, [Op.call "_gcry_mpih_sub_n" [wp, up, vp, usize]])

/-- The body of the loop of `_gcry_mpih_mod`, with its trace.  The conditional
expression `(limb & (A_LIMB_1 << bitno)) ? 1 : 0` that yields `the_bit` is a
conditional on `limb & (A_LIMB_1 << bitno)`, recorded with its outcome. -/
def mod_loop_body_tr (w rp vp vsize up usize i : Nat) (m : Mem) : Traced Mem := do
  let t ← t_op Alu.mul (vsize * w)
  let t ← t_op Alu.sub (t - 1)
  let j ← t_op Alu.sub (t - i)
  let limbno ← t_op Alu.div (j / w)
  let bitno ← t_op Alu.rem (j % w)
  let limb ← t_load m (vp + limbno)
  let b ← t_op Alu.shl ((1 <<< bitno) % 2 ^ w)
  let lb ← t_op Alu.and (limb &&& b)
  t_branch (decide (lb ≠ 0))
  let the_bit := if lb ≠ 0 then 1 else 0
  let r ← _gcry_mpih_lshift_tr w m rp rp usize 1
  let m := r.1
  let r0 ← t_load m (rp + 0)
  let r0 ← t_op Alu.or (r0 ||| the_bit)
  let m ← t_store m (rp + 0) r0
  let r ← _gcry_mpih_sub_n_tr w m rp rp up usize
  let m := r.1
  let underflow := r.2
  let r ← _gcry_mpih_add_n_cond_tr w m rp rp up usize underflow
  pure r.1

/-- Source: `_gcry_mpih_mod`, with its trace; `rp` is the address that
`mpi_alloc_limb_space` returns. -/
def _gcry_mpih_mod_tr (w : Nat) (m : Mem) (rp vp vsize up usize : Nat) : Traced Mem := do
  let _ ← ((), [Op.call "_gcry_is_secure" [vp]])
  let _ ← ((), [Op.call "mpi_alloc_limb_space" [usize]])
  let m ← MPN_ZERO_tr m rp usize
  let n ← t_op Alu.mul (vsize * w)
  forT (mod_loop_body_tr w rp vp vsize up usize) m n

/-- The outcomes of the conditionals of a trace, in order. -/
def branch_outcomes : List Op → List Bool
  | [] => []
  | Op.branch b :: t => b :: branch_outcomes t
  | _ :: t => branch_outcomes t

/-- A trace with the outcomes of its conditionals left aside: the sequence of
the memory accesses, word operations, conditionals and calls executed. -/
def erase_outcomes : List Op → List Op
  | [] => []
  | Op.branch _ :: t => Op.branch true :: erase_outcomes t
  | o :: t => o :: erase_outcomes t

/-! ## Basic facts about memory and values -/

theorem write_same (m : Mem) (a v : Nat) : write m a v a = v := by
  simp [write]

theorem write_other (m : Mem) (a v b : Nat) (h : b ≠ a) : write m a v b = m b := by
  simp [write, h]

theorem limbs_length (m : Mem) (p n : Nat) : (limbs m p n).length = n := by
  simp [limbs]

theorem limbs_succ (m : Mem) (p n : Nat) :
    limbs m p (n + 1) = limbs m p n ++ [m (p + n)] := by
  simp [limbs, List.range_succ]

theorem value_snoc (w : Nat) (l : List Nat) (x : Nat) :
    value w (l ++ [x]) = value w l + x * 2 ^ (w * l.length) := by
  induction l with
  | nil => simp [value]
  | cons y ys ih =>
    have h : value w (y :: (ys ++ [x])) = y + 2 ^ w * value w (ys ++ [x]) := rfl
    have h2 : value w (y :: ys) = y + 2 ^ w * value w ys := rfl
    rw [List.cons_append, h, h2, ih, List.length_cons, Nat.mul_succ, Nat.pow_add]
    ring

theorem valueAt_zero (w : Nat) (m : Mem) (p : Nat) : valueAt w m p 0 = 0 := by
  simp [valueAt, limbs, value]

theorem valueAt_succ (w : Nat) (m : Mem) (p n : Nat) :
    valueAt w m p (n + 1) = valueAt w m p n + m (p + n) * 2 ^ (w * n) := by
  simp [valueAt, limbs_succ, value_snoc, limbs_length]

theorem valueAt_lt (w : Nat) (m : Mem) (hm : LimbsOk w m) (p n : Nat) :
    valueAt w m p n < 2 ^ (w * n) := by
  induction n with
  | zero => simp [valueAt_zero]
  | succ n ih =>
    rw [valueAt_succ, Nat.mul_succ, Nat.pow_add]
    have h1 := hm (p + n)
    have h2 : m (p + n) + 1 ≤ 2 ^ w := h1
    have h3 : (m (p + n) + 1) * 2 ^ (w * n) ≤ 2 ^ w * 2 ^ (w * n) :=
      Nat.mul_le_mul_right _ h2
    nlinarith

theorem limbs_congr (m m2 : Mem) (p q n : Nat)
    (h : ∀ i, i < n → m (p + i) = m2 (q + i)) : limbs m p n = limbs m2 q n := by
  unfold limbs
  apply List.map_congr_left
  intro i hi
  exact h i (List.mem_range.mp hi)

theorem valueAt_congr (w : Nat) (m m2 : Mem) (p q n : Nat)
    (h : ∀ i, i < n → m (p + i) = m2 (q + i)) : valueAt w m p n = valueAt w m2 q n := by
  unfold valueAt
  rw [limbs_congr m m2 p q n h]

/-! ## Single-limb arithmetic -/

theorem limb_sub_zero_zero (w : Nat) : limb_sub w 0 0 = 0 := by
  simp [limb_sub]

theorem mod_of_lt_two_mul (B n : Nat) (h : n < 2 * B) :
    (n < B ∧ n % B = n) ∨ (B ≤ n ∧ n % B = n - B) := by
  rcases Nat.lt_or_ge n B with h1 | h1
  · exact Or.inl ⟨h1, Nat.mod_eq_of_lt h1⟩
  · right
    refine ⟨h1, ?_⟩
    rw [Nat.mod_eq_sub_mod h1]
    exact Nat.mod_eq_of_lt (by omega)

theorem sub_limb_aux (B u b cy : Nat) (hu : u < B) (hb : b < B) (hc : cy ≤ 1) :
    ((((u % B + B - b % B) % B) % B + B - cy % B) % B < B) ∧
    ((if (u % B + B - b % B) % B > u then 1 else 0) |||
        (if (u % B + B - b % B) % B < cy then 1 else 0)) ≤ 1 ∧
    (((u % B + B - b % B) % B) % B + B - cy % B) % B + b + cy =
      u + ((if (u % B + B - b % B) % B > u then 1 else 0) |||
        (if (u % B + B - b % B) % B < cy then 1 else 0)) * B := by
  have hB : 0 < B := by omega
  rw [Nat.mod_mod, Nat.mod_eq_of_lt hu, Nat.mod_eq_of_lt hb]
  have h1 := mod_of_lt_two_mul B (u + B - b) (by omega)
  have hx1 : (u + B - b) % B < B := Nat.mod_lt _ hB
  refine ⟨Nat.mod_lt _ hB, ?_, ?_⟩
  · split_ifs <;> decide
  · rcases Nat.lt_or_ge 1 B with hB1 | hB1
    · have hcy : cy % B = cy := Nat.mod_eq_of_lt (by omega)
      rw [hcy]
      have h2 := mod_of_lt_two_mul B ((u + B - b) % B + B - cy) (by omega)
      rcases h1 with ⟨h1a, h1b⟩ | ⟨h1a, h1b⟩ <;> rcases h2 with ⟨h2a, h2b⟩ | ⟨h2a, h2b⟩ <;>
        rw [h2b, h1b] at * <;> split_ifs <;> simp <;> omega
    · have hB1 : B = 1 := by omega
      subst hB1
      have hu0 : u = 0 := by omega
      have hb0 : b = 0 := by omega
      subst hu0 hb0
      simp only [Nat.mod_one, Nat.zero_add, Nat.sub_zero, Nat.add_zero, Nat.mul_one]
      split_ifs <;> first | omega | (simp; done) | (simp; omega)

theorem sub_limb_step (w u b cy : Nat) (hu : u < 2 ^ w) (hb : b < 2 ^ w) (hc : cy ≤ 1) :
    (limb_sub w (limb_sub w u b) cy < 2 ^ w) ∧
    ((if limb_sub w u b > u then 1 else 0) |||
        (if limb_sub w u b < cy then 1 else 0)) ≤ 1 ∧
    limb_sub w (limb_sub w u b) cy + b + cy =
      u + ((if limb_sub w u b > u then 1 else 0) |||
        (if limb_sub w u b < cy then 1 else 0)) * 2 ^ w :=
  sub_limb_aux (2 ^ w) u b cy hu hb hc
theorem limb_sub_zero_one (w : Nat) : limb_sub w 0 1 = 2 ^ w - 1 := by
  unfold limb_sub
  rcases Nat.eq_zero_or_pos w with h | h
  · subst h; simp
  · have h1 : 1 < 2 ^ w := Nat.one_lt_two_pow (Nat.pos_iff_ne_zero.mp h)
    rw [Nat.zero_mod, Nat.zero_add, Nat.mod_eq_of_lt h1]
    exact Nat.mod_eq_of_lt (by omega)

theorem and_mask (w f x : Nat) (hf : f ≤ 1) (hx : x < 2 ^ w) :
    x &&& limb_sub w 0 f = f * x := by
  have h : f = 0 ∨ f = 1 := by omega
  rcases h with h | h
  · subst h; simp [limb_sub_zero_zero]
  · subst h
    rw [limb_sub_zero_one, Nat.and_pow_two_sub_one_eq_mod, Nat.mod_eq_of_lt hx, Nat.one_mul]

theorem mask_and (w f x : Nat) (hf : f ≤ 1) (hx : x < 2 ^ w) :
    limb_sub w 0 f &&& x = f * x := by
  rw [Nat.and_comm]; exact and_mask w f x hf hx

theorem add_limb_step (B a b cy : Nat) (ha : a < B) (hb : b < B) (hc : cy ≤ 1) :
    (((a + b) % B + cy) % B < B) ∧
    ((if (a + b) % B < a then 1 else 0) |||
        (if ((a + b) % B + cy) % B < cy then 1 else 0)) ≤ 1 ∧
    ((a + b) % B + cy) % B +
      ((if (a + b) % B < a then 1 else 0) |||
        (if ((a + b) % B + cy) % B < cy then 1 else 0)) * B = a + b + cy := by
  have hB : 0 < B := by omega
  have h1 := mod_of_lt_two_mul B (a + b) (by omega)
  have hx1 : (a + b) % B < B := Nat.mod_lt _ hB
  have h2 := mod_of_lt_two_mul B ((a + b) % B + cy) (by omega)
  refine ⟨Nat.mod_lt _ hB, ?_, ?_⟩
  · split_ifs <;> decide
  · rcases h1 with ⟨h1a, h1b⟩ | ⟨h1a, h1b⟩ <;> rcases h2 with ⟨h2a, h2b⟩ | ⟨h2a, h2b⟩ <;>
      rw [h2b, h1b] at * <;> split_ifs <;> simp <;> omega

theorem LimbsOk_write (w : Nat) (m : Mem) (a v : Nat) (hm : LimbsOk w m) (hv : v < 2 ^ w) :
    LimbsOk w (write m a v) := by
  intro b
  by_cases h : b = a
  · subst h; rw [write_same]; exact hv
  · rw [write_other m a v b h]; exact hm b

theorem valueAt_write_above (w : Nat) (m : Mem) (p n a v : Nat) (h : a < p ∨ p + n ≤ a) :
    valueAt w (write m a v) p n = valueAt w m p n := by
  apply valueAt_congr
  intro i hi
  exact write_other m a v (p + i) (by omega)

theorem mul_le_one_lt (f x B : Nat) (hf : f ≤ 1) (hx : x < B) : f * x < B := by
  have h : f = 0 ∨ f = 1 := by omega
  rcases h with h | h <;> subst h <;> simp <;> omega

theorem add_n_cond_succ (w : Nat) (m : Mem) (wp up vp n f : Nat) :
    _gcry_mpih_add_n_cond w m wp up vp (n + 1) f =
      (write (_gcry_mpih_add_n_cond w m wp up vp n f).1 (wp + n)
        (limb_add w (limb_add w ((_gcry_mpih_add_n_cond w m wp up vp n f).1 (up + n))
          ((_gcry_mpih_add_n_cond w m wp up vp n f).1 (vp + n) &&& limb_sub w 0 f))
          (_gcry_mpih_add_n_cond w m wp up vp n f).2),
       (if limb_add w ((_gcry_mpih_add_n_cond w m wp up vp n f).1 (up + n))
          ((_gcry_mpih_add_n_cond w m wp up vp n f).1 (vp + n) &&& limb_sub w 0 f) <
            (_gcry_mpih_add_n_cond w m wp up vp n f).1 (up + n) then 1 else 0) |||
       (if limb_add w (limb_add w ((_gcry_mpih_add_n_cond w m wp up vp n f).1 (up + n))
          ((_gcry_mpih_add_n_cond w m wp up vp n f).1 (vp + n) &&& limb_sub w 0 f))
          (_gcry_mpih_add_n_cond w m wp up vp n f).2 <
            (_gcry_mpih_add_n_cond w m wp up vp n f).2 then 1 else 0)) := rfl

/-- What `_gcry_mpih_add_n_cond` does for a flag `f` that is 0 or 1: the memory
stays a memory of limbs, the carry is 0 or 1, only `W` is written, and
`value W + carry * 2 ^ (w * n) = value U + f * value V`. -/
theorem add_n_cond_spec (w : Nat) (m : Mem) (wp up vp f : Nat) (hm : LimbsOk w m)
    (hf : f ≤ 1) (n : Nat) (hu : wp ≤ up ∨ up + n ≤ wp)
    (hv : f = 0 ∨ wp ≤ vp ∨ vp + n ≤ wp) :
    LimbsOk w (_gcry_mpih_add_n_cond w m wp up vp n f).1 ∧
    (_gcry_mpih_add_n_cond w m wp up vp n f).2 ≤ 1 ∧
    (∀ a, (a < wp ∨ wp + n ≤ a) → (_gcry_mpih_add_n_cond w m wp up vp n f).1 a = m a) ∧
    valueAt w (_gcry_mpih_add_n_cond w m wp up vp n f).1 wp n +
        (_gcry_mpih_add_n_cond w m wp up vp n f).2 * 2 ^ (w * n) =
      valueAt w m up n + f * valueAt w m vp n := by
  induction n with
  | zero =>
    refine ⟨hm, Nat.zero_le _, fun a _ => rfl, ?_⟩
    simp [valueAt_zero, _gcry_mpih_add_n_cond, forLoop]
  | succ n ih =>
    obtain ⟨hok, hcy, hframe, hval⟩ := ih (by omega) (by omega)
    rw [add_n_cond_succ]
    generalize _gcry_mpih_add_n_cond w m wp up vp n f = s at hok hcy hframe hval ⊢
    have hU : s.1 (up + n) = m (up + n) := hframe _ (by omega)
    have hV : s.1 (vp + n) &&& limb_sub w 0 f = f * m (vp + n) := by
      rcases Nat.eq_zero_or_pos f with h0 | h0
      · subst h0; simp [limb_sub_zero_zero]
      · rw [hframe (vp + n) (by omega)]; exact and_mask w f _ hf (hm _)
    rw [hU, hV]
    unfold limb_add
    obtain ⟨h1, h2, h3⟩ := add_limb_step (2 ^ w) (m (up + n)) (f * m (vp + n)) s.2
      (hm _) (mul_le_one_lt _ _ _ hf (hm _)) hcy
    refine ⟨LimbsOk_write w _ _ _ hok h1, h2, ?_, ?_⟩
    · intro a ha
      show (write s.1 (wp + n) _) a = m a
      rw [write_other _ _ _ _ (by omega)]
      exact hframe a (by omega)
    · show valueAt w (write s.1 (wp + n) _) wp (n + 1) + _ * 2 ^ (w * (n + 1)) = _
      rw [valueAt_succ, valueAt_succ, valueAt_succ, write_same,
        valueAt_write_above w s.1 wp n (wp + n) _ (by omega), Nat.mul_succ, Nat.pow_add]
      generalize valueAt w s.1 wp n = VW at hval ⊢
      generalize valueAt w m up n = VU at hval ⊢
      generalize valueAt w m vp n = VV at hval ⊢
      generalize 2 ^ (w * n) = P at hval ⊢
      generalize (((m (up + n) + f * m (vp + n)) % 2 ^ w + s.2) % 2 ^ w) = x2 at h3 ⊢
      generalize ((if (m (up + n) + f * m (vp + n)) % 2 ^ w < m (up + n) then 1 else 0) |||
        (if x2 < s.2 then 1 else 0)) = c2 at h3 ⊢
      have h4 : (x2 + c2 * 2 ^ w) * P = (m (up + n) + f * m (vp + n) + s.2) * P := by rw [h3]
      linarith [hval, h4]

theorem sub_n_cond_succ (w : Nat) (m : Mem) (wp up vp n f : Nat) :
    _gcry_mpih_sub_n_cond w m wp up vp (n + 1) f =
      (write (_gcry_mpih_sub_n_cond w m wp up vp n f).1 (wp + n)
        (limb_sub w (limb_sub w ((_gcry_mpih_sub_n_cond w m wp up vp n f).1 (up + n))
          ((_gcry_mpih_sub_n_cond w m wp up vp n f).1 (vp + n) &&& limb_sub w 0 f))
          (_gcry_mpih_sub_n_cond w m wp up vp n f).2),
       (if limb_sub w ((_gcry_mpih_sub_n_cond w m wp up vp n f).1 (up + n))
          ((_gcry_mpih_sub_n_cond w m wp up vp n f).1 (vp + n) &&& limb_sub w 0 f) >
            (_gcry_mpih_sub_n_cond w m wp up vp n f).1 (up + n) then 1 else 0) |||
       (if limb_sub w ((_gcry_mpih_sub_n_cond w m wp up vp n f).1 (up + n))
          ((_gcry_mpih_sub_n_cond w m wp up vp n f).1 (vp + n) &&& limb_sub w 0 f) <
            (_gcry_mpih_sub_n_cond w m wp up vp n f).2 then 1 else 0)) := rfl

/-- What `_gcry_mpih_sub_n_cond` does for a flag `f` that is 0 or 1: the memory
stays a memory of limbs, the borrow is 0 or 1, only `W` is written, and
`value W + f * value V = value U + borrow * 2 ^ (w * n)`. -/
theorem sub_n_cond_spec (w : Nat) (m : Mem) (wp up vp f : Nat) (hm : LimbsOk w m)
    (hf : f ≤ 1) (n : Nat) (hu : wp ≤ up ∨ up + n ≤ wp)
    (hv : f = 0 ∨ wp ≤ vp ∨ vp + n ≤ wp) :
    LimbsOk w (_gcry_mpih_sub_n_cond w m wp up vp n f).1 ∧
    (_gcry_mpih_sub_n_cond w m wp up vp n f).2 ≤ 1 ∧
    (∀ a, (a < wp ∨ wp + n ≤ a) → (_gcry_mpih_sub_n_cond w m wp up vp n f).1 a = m a) ∧
    valueAt w (_gcry_mpih_sub_n_cond w m wp up vp n f).1 wp n + f * valueAt w m vp n =
      valueAt w m up n + (_gcry_mpih_sub_n_cond w m wp up vp n f).2 * 2 ^ (w * n) := by
  induction n with
  | zero =>
    refine ⟨hm, Nat.zero_le _, fun a _ => rfl, ?_⟩
    simp [valueAt_zero, _gcry_mpih_sub_n_cond, forLoop]
  | succ n ih =>
    obtain ⟨hok, hcy, hframe, hval⟩ := ih (by omega) (by omega)
    rw [sub_n_cond_succ]
    generalize _gcry_mpih_sub_n_cond w m wp up vp n f = s at hok hcy hframe hval ⊢
    have hU : s.1 (up + n) = m (up + n) := hframe _ (by omega)
    have hV : s.1 (vp + n) &&& limb_sub w 0 f = f * m (vp + n) := by
      rcases Nat.eq_zero_or_pos f with h0 | h0
      · subst h0; simp [limb_sub_zero_zero]
      · rw [hframe (vp + n) (by omega)]; exact and_mask w f _ hf (hm _)
    rw [hU, hV]
    obtain ⟨h1, h2, h3⟩ := sub_limb_step w (m (up + n)) (f * m (vp + n)) s.2
      (hm _) (mul_le_one_lt _ _ _ hf (hm _)) hcy
    refine ⟨LimbsOk_write w _ _ _ hok h1, h2, ?_, ?_⟩
    · intro a ha
      show (write s.1 (wp + n) _) a = m a
      rw [write_other _ _ _ _ (by omega)]
      exact hframe a (by omega)
    · show valueAt w (write s.1 (wp + n) _) wp (n + 1) + _ = _ + _ * 2 ^ (w * (n + 1))
      rw [valueAt_succ, valueAt_succ, valueAt_succ, write_same,
        valueAt_write_above w s.1 wp n (wp + n) _ (by omega), Nat.mul_succ, Nat.pow_add]
      generalize valueAt w s.1 wp n = VW at hval ⊢
      generalize valueAt w m up n = VU at hval ⊢
      generalize valueAt w m vp n = VV at hval ⊢
      generalize 2 ^ (w * n) = P at hval ⊢
      generalize limb_sub w (limb_sub w (m (up + n)) (f * m (vp + n))) s.2 = x2 at h3 ⊢
      generalize ((if limb_sub w (m (up + n)) (f * m (vp + n)) > m (up + n) then 1 else 0) |||
        (if limb_sub w (m (up + n)) (f * m (vp + n)) < s.2 then 1 else 0)) = c2 at h3 ⊢
      have h4 : (x2 + f * m (vp + n) + s.2) * P = (m (up + n) + c2 * 2 ^ w) * P := by rw [h3]
      linarith [hval, h4]

theorem add_mul_cancel (P A x A2 x2 : Nat) (hA : A < P) (hA2 : A2 < P)
    (h : A + x * P = A2 + x2 * P) : A = A2 ∧ x = x2 := by
  have hP : 0 < P := by omega
  have h1 : (A + x * P) % P = A := by
    rw [Nat.add_mul_mod_self_right]; exact Nat.mod_eq_of_lt hA
  have h2 : (A2 + x2 * P) % P = A2 := by
    rw [Nat.add_mul_mod_self_right]; exact Nat.mod_eq_of_lt hA2
  have hAA : A = A2 := by rw [← h1, ← h2, h]
  subst hAA
  have h3 : x * P = x2 * P := by omega
  exact ⟨rfl, Nat.eq_of_mul_eq_mul_right hP h3⟩

theorem limbs_eq_of_valueAt_eq (w : Nat) (m m2 : Mem) (p q : Nat) (hm : LimbsOk w m)
    (hm2 : LimbsOk w m2) (n : Nat) (h : valueAt w m p n = valueAt w m2 q n) :
    limbs m p n = limbs m2 q n := by
  induction n with
  | zero => simp [limbs]
  | succ n ih =>
    rw [valueAt_succ, valueAt_succ] at h
    obtain ⟨h1, h2⟩ := add_mul_cancel _ _ _ _ _ (valueAt_lt w m hm p n)
      (valueAt_lt w m2 hm2 q n) h
    rw [limbs_succ, limbs_succ, ih h1, h2]

theorem LimbsOk_memOfList (w : Nat) (l : List Nat) (h : ∀ x ∈ l, x < 2 ^ w) :
    LimbsOk w (memOfList l) := by
  intro a
  show l.getD a 0 < 2 ^ w
  rcases Nat.lt_or_ge a l.length with ha | ha
  · rw [List.getD_eq_getElem l 0 ha]
    exact h _ (List.getElem_mem ha)
  · rw [List.getD_eq_default l 0 ha]
    exact Nat.two_pow_pos w

/-- C3: with `op_enable = 1`, `_gcry_mpih_add_n_cond` is the `n`-limb addition:
for all `n`-limb arrays `U` and `V` and a destination `W` that is `U`, `V` or a
buffer that starts inside neither, the returned carry `c` is 0 or 1, `W` is an
array of limbs and `value W + c * 2 ^ (n * w) = value U + value V`. -/
theorem add_n_cond_enabled (w : Nat) (m : Mem) (wp up vp n : Nat) (hm : LimbsOk w m)
    (hu : wp ≤ up ∨ up + n ≤ wp) (hv : wp ≤ vp ∨ vp + n ≤ wp) :
    ((_gcry_mpih_add_n_cond w m wp up vp n 1).2 = 0 ∨
      (_gcry_mpih_add_n_cond w m wp up vp n 1).2 = 1) ∧
    (∀ x ∈ limbs (_gcry_mpih_add_n_cond w m wp up vp n 1).1 wp n, x < 2 ^ w) ∧
    valueAt w (_gcry_mpih_add_n_cond w m wp up vp n 1).1 wp n +
        (_gcry_mpih_add_n_cond w m wp up vp n 1).2 * 2 ^ (n * w) =
      valueAt w m up n + valueAt w m vp n := by
  obtain ⟨h1, h2, _, h4⟩ := add_n_cond_spec w m wp up vp 1 hm (Nat.le_refl 1) n hu (Or.inr hv)
  refine ⟨by omega, ?_, ?_⟩
  · intro x hx
    obtain ⟨i, _, rfl⟩ := List.mem_map.mp hx
    exact h1 _
  · rw [Nat.mul_comm n w, h4, Nat.one_mul]

/-- Witness of C3 on 64-bit limbs: `U = [2^64 - 1, 1]` at address 0,
`V = [1, 2^64 - 1]` at address 2 and the destination at address 4. -/
theorem add_n_cond_enabled_witness :
    ((_gcry_mpih_add_n_cond 64 (memOfList [2 ^ 64 - 1, 1, 1, 2 ^ 64 - 1]) 4 0 2 2 1).2 = 0 ∨
      (_gcry_mpih_add_n_cond 64 (memOfList [2 ^ 64 - 1, 1, 1, 2 ^ 64 - 1]) 4 0 2 2 1).2 = 1) ∧
    (∀ x ∈ limbs (_gcry_mpih_add_n_cond 64 (memOfList [2 ^ 64 - 1, 1, 1, 2 ^ 64 - 1])
      4 0 2 2 1).1 4 2, x < 2 ^ 64) ∧
    valueAt 64 (_gcry_mpih_add_n_cond 64 (memOfList [2 ^ 64 - 1, 1, 1, 2 ^ 64 - 1])
        4 0 2 2 1).1 4 2 +
        (_gcry_mpih_add_n_cond 64 (memOfList [2 ^ 64 - 1, 1, 1, 2 ^ 64 - 1]) 4 0 2 2 1).2 *
          2 ^ (2 * 64) =
      valueAt 64 (memOfList [2 ^ 64 - 1, 1, 1, 2 ^ 64 - 1]) 0 2 +
        valueAt 64 (memOfList [2 ^ 64 - 1, 1, 1, 2 ^ 64 - 1]) 2 2 :=
  add_n_cond_enabled 64 (memOfList [2 ^ 64 - 1, 1, 1, 2 ^ 64 - 1]) 4 0 2 2
    (LimbsOk_memOfList 64 _ (by decide)) (by decide) (by decide)

/-- C4: with `op_enable = 1`, `_gcry_mpih_sub_n_cond` is the `n`-limb
subtraction: for all `n`-limb arrays `U` and `V` and a destination `W` that is
`U`, `V` or a buffer that starts inside neither, the returned borrow `b` is 0
or 1, `b = 1` exactly when `value U < value V`, `W` is an array of limbs and
`value W = value U - value V + b * 2 ^ (n * w)` (over the integers). -/
theorem sub_n_cond_enabled (w : Nat) (m : Mem) (wp up vp n : Nat) (hm : LimbsOk w m)
    (hu : wp ≤ up ∨ up + n ≤ wp) (hv : wp ≤ vp ∨ vp + n ≤ wp) :
    ((_gcry_mpih_sub_n_cond w m wp up vp n 1).2 = 0 ∨
      (_gcry_mpih_sub_n_cond w m wp up vp n 1).2 = 1) ∧
    ((_gcry_mpih_sub_n_cond w m wp up vp n 1).2 = 1 ↔
      valueAt w m up n < valueAt w m vp n) ∧
    (∀ x ∈ limbs (_gcry_mpih_sub_n_cond w m wp up vp n 1).1 wp n, x < 2 ^ w) ∧
    (valueAt w (_gcry_mpih_sub_n_cond w m wp up vp n 1).1 wp n : Int) =
      (valueAt w m up n : Int) - (valueAt w m vp n : Int) +
        ((_gcry_mpih_sub_n_cond w m wp up vp n 1).2 : Int) * 2 ^ (n * w) := by
  obtain ⟨h1, h2, _, h4⟩ := sub_n_cond_spec w m wp up vp 1 hm (Nat.le_refl 1) n hu (Or.inr hv)
  have h5 := valueAt_lt w _ h1 wp n
  rw [Nat.one_mul] at h4
  rw [Nat.mul_comm n w]
  generalize (_gcry_mpih_sub_n_cond w m wp up vp n 1) = s at h1 h2 h4 h5 ⊢
  have hb : s.2 = 0 ∨ s.2 = 1 := by omega
  refine ⟨hb, ?_, ?_, ?_⟩
  · rcases hb with hb | hb <;> rw [hb] at h4 <;> rw [hb] <;> constructor <;> intro h <;>
      omega
  · intro x hx
    obtain ⟨i, _, rfl⟩ := List.mem_map.mp hx
    exact h1 _
  · have h6 : (valueAt w s.1 wp n : Int) + (valueAt w m vp n : Int) =
        (valueAt w m up n : Int) + (s.2 : Int) * 2 ^ (w * n) := by
      exact_mod_cast h4
    linarith

/-- Witness of C4 on 64-bit limbs: `U = [0, 1]` at address 0, `V = [1, 1]` at
address 2 (so `U < V`) and the destination at address 4. -/
theorem sub_n_cond_enabled_witness :
    ((_gcry_mpih_sub_n_cond 64 (memOfList [0, 1, 1, 1]) 4 0 2 2 1).2 = 0 ∨
      (_gcry_mpih_sub_n_cond 64 (memOfList [0, 1, 1, 1]) 4 0 2 2 1).2 = 1) ∧
    ((_gcry_mpih_sub_n_cond 64 (memOfList [0, 1, 1, 1]) 4 0 2 2 1).2 = 1 ↔
      valueAt 64 (memOfList [0, 1, 1, 1]) 0 2 < valueAt 64 (memOfList [0, 1, 1, 1]) 2 2) ∧
    (∀ x ∈ limbs (_gcry_mpih_sub_n_cond 64 (memOfList [0, 1, 1, 1]) 4 0 2 2 1).1 4 2,
      x < 2 ^ 64) ∧
    (valueAt 64 (_gcry_mpih_sub_n_cond 64 (memOfList [0, 1, 1, 1]) 4 0 2 2 1).1 4 2 : Int) =
      (valueAt 64 (memOfList [0, 1, 1, 1]) 0 2 : Int) -
        (valueAt 64 (memOfList [0, 1, 1, 1]) 2 2 : Int) +
        ((_gcry_mpih_sub_n_cond 64 (memOfList [0, 1, 1, 1]) 4 0 2 2 1).2 : Int) *
          2 ^ (2 * 64) :=
  sub_n_cond_enabled 64 (memOfList [0, 1, 1, 1]) 4 0 2 2
    (LimbsOk_memOfList 64 _ (by decide)) (by decide) (by decide)

/-- C5: with `op_enable = 0`, whatever `V` contains, `_gcry_mpih_add_n_cond`
and `_gcry_mpih_sub_n_cond` both leave in `W` the limbs of `U`, limb for limb,
and return 0; `W` is `U` itself or a buffer that does not start inside `U`. -/
theorem add_sub_n_cond_disabled (w : Nat) (m : Mem) (wp up vp n : Nat) (hm : LimbsOk w m)
    (hu : wp ≤ up ∨ up + n ≤ wp) :
    limbs (_gcry_mpih_add_n_cond w m wp up vp n 0).1 wp n = limbs m up n ∧
    (_gcry_mpih_add_n_cond w m wp up vp n 0).2 = 0 ∧
    limbs (_gcry_mpih_sub_n_cond w m wp up vp n 0).1 wp n = limbs m up n ∧
    (_gcry_mpih_sub_n_cond w m wp up vp n 0).2 = 0 := by
  obtain ⟨a1, a2, _, a4⟩ := add_n_cond_spec w m wp up vp 0 hm (Nat.zero_le 1) n hu (Or.inl rfl)
  obtain ⟨s1, s2, _, s4⟩ := sub_n_cond_spec w m wp up vp 0 hm (Nat.zero_le 1) n hu (Or.inl rfl)
  have a5 := valueAt_lt w _ a1 wp n
  have s5 := valueAt_lt w _ s1 wp n
  have hU := valueAt_lt w m hm up n
  rw [Nat.zero_mul, Nat.add_zero] at a4 s4
  generalize (_gcry_mpih_add_n_cond w m wp up vp n 0) = sa at a1 a2 a4 a5 ⊢
  generalize (_gcry_mpih_sub_n_cond w m wp up vp n 0) = ss at s1 s2 s4 s5 ⊢
  have ha : sa.2 = 0 := by
    rcases Nat.eq_zero_or_pos sa.2 with h | h
    · exact h
    · have : sa.2 = 1 := by omega
      rw [this] at a4; omega
  have hs : ss.2 = 0 := by
    rcases Nat.eq_zero_or_pos ss.2 with h | h
    · exact h
    · have : ss.2 = 1 := by omega
      rw [this] at s4; omega
  rw [ha] at a4
  rw [hs] at s4
  refine ⟨limbs_eq_of_valueAt_eq w _ _ _ _ a1 hm n (by omega), ha,
    limbs_eq_of_valueAt_eq w _ _ _ _ s1 hm n (by omega), hs⟩

/-- Witness of C5 on 64-bit limbs: `U = [7, 2^64 - 1]` at address 0,
`V = [2^64 - 1, 2^64 - 1]` at address 2, in place (`W` is `U`). -/
theorem add_sub_n_cond_disabled_witness :
    limbs (_gcry_mpih_add_n_cond 64 (memOfList [7, 2 ^ 64 - 1, 2 ^ 64 - 1, 2 ^ 64 - 1])
      0 0 2 2 0).1 0 2 = limbs (memOfList [7, 2 ^ 64 - 1, 2 ^ 64 - 1, 2 ^ 64 - 1]) 0 2 ∧
    (_gcry_mpih_add_n_cond 64 (memOfList [7, 2 ^ 64 - 1, 2 ^ 64 - 1, 2 ^ 64 - 1])
      0 0 2 2 0).2 = 0 ∧
    limbs (_gcry_mpih_sub_n_cond 64 (memOfList [7, 2 ^ 64 - 1, 2 ^ 64 - 1, 2 ^ 64 - 1])
      0 0 2 2 0).1 0 2 = limbs (memOfList [7, 2 ^ 64 - 1, 2 ^ 64 - 1, 2 ^ 64 - 1]) 0 2 ∧
    (_gcry_mpih_sub_n_cond 64 (memOfList [7, 2 ^ 64 - 1, 2 ^ 64 - 1, 2 ^ 64 - 1])
      0 0 2 2 0).2 = 0 :=
  add_sub_n_cond_disabled 64 (memOfList [7, 2 ^ 64 - 1, 2 ^ 64 - 1, 2 ^ 64 - 1]) 0 0 2 2
    (LimbsOk_memOfList 64 _ (by decide)) (by decide)

/-! ## Blends: conditional assignment and conditional swap -/

theorem blend_enabled (w x y : Nat) (hx : x < 2 ^ w) (hy : y < 2 ^ w) :
    x ^^^ (limb_sub w 0 1 &&& (x ^^^ y)) = y := by
  rw [mask_and w 1 _ (Nat.le_refl 1) (Nat.xor_lt_two_pow hx hy), Nat.one_mul,
    ← Nat.xor_assoc, Nat.xor_self, Nat.zero_xor]

theorem blend_disabled (w x y : Nat) : x ^^^ (limb_sub w 0 0 &&& (x ^^^ y)) = x := by
  rw [limb_sub_zero_zero, Nat.zero_and, Nat.xor_zero]

theorem blend_lt (w f x y : Nat) (hx : x < 2 ^ w) (hy : y < 2 ^ w) :
    x ^^^ (limb_sub w 0 f &&& (x ^^^ y)) < 2 ^ w :=
  Nat.xor_lt_two_pow hx (Nat.and_lt_two_pow _ (Nat.xor_lt_two_pow hx hy))

theorem set_cond_succ (w : Nat) (m : Mem) (wp up n f : Nat) :
    _gcry_mpih_set_cond w m wp up (n + 1) f =
      write (_gcry_mpih_set_cond w m wp up n f) (wp + n)
        ((_gcry_mpih_set_cond w m wp up n f) (wp + n) ^^^
          (limb_sub w 0 f &&& ((_gcry_mpih_set_cond w m wp up n f) (wp + n) ^^^
            (_gcry_mpih_set_cond w m wp up n f) (up + n)))) := rfl

/-- What `_gcry_mpih_set_cond` does for any flag: only `W` is written and each
of its limbs becomes the blend of its old value with the limb of `U`. -/
theorem set_cond_spec (w : Nat) (m : Mem) (wp up f : Nat) (hm : LimbsOk w m) (n : Nat)
    (hu : wp ≤ up ∨ up + n ≤ wp) :
    LimbsOk w (_gcry_mpih_set_cond w m wp up n f) ∧
    (∀ a, (a < wp ∨ wp + n ≤ a) → (_gcry_mpih_set_cond w m wp up n f) a = m a) ∧
    (∀ i, i < n → (_gcry_mpih_set_cond w m wp up n f) (wp + i) =
      m (wp + i) ^^^ (limb_sub w 0 f &&& (m (wp + i) ^^^ m (up + i)))) := by
  induction n with
  | zero => exact ⟨hm, fun a _ => rfl, fun i hi => absurd hi (Nat.not_lt_zero i)⟩
  | succ n ih =>
    obtain ⟨hok, hframe, hval⟩ := ih (by omega)
    rw [set_cond_succ]
    generalize _gcry_mpih_set_cond w m wp up n f = s at hok hframe hval ⊢
    rw [hframe (wp + n) (by omega), hframe (up + n) (by omega)]
    refine ⟨LimbsOk_write w _ _ _ hok (blend_lt w f _ _ (hm _) (hm _)), ?_, ?_⟩
    · intro a ha
      rw [write_other _ _ _ _ (by omega)]
      exact hframe a (by omega)
    · intro i hi
      rcases Nat.lt_or_ge i n with h | h
      · rw [write_other _ _ _ _ (by omega)]
        exact hval i h
      · have : i = n := by omega
        subst this
        rw [write_same]

/-- C6: `_gcry_mpih_set_cond` on `n`-limb arrays `W` and `U`, where `W` is `U`
itself or does not overlap `U`: with `op_enable = 1` it leaves `W` equal to `U`
limb for limb, with `op_enable = 0` it leaves `W` as it was; for either flag
each limb of `W` becomes `W[i] XOR (mask AND (W[i] XOR U[i]))` with
`mask = 0 - op_enable`, `U` keeps its limbs and no cell outside `W` changes. -/
theorem set_cond_correct (w : Nat) (m : Mem) (wp up n : Nat) (hm : LimbsOk w m)
    (hsep : wp = up ∨ up + n ≤ wp ∨ wp + n ≤ up) :
    limbs (_gcry_mpih_set_cond w m wp up n 1) wp n = limbs m up n ∧
    limbs (_gcry_mpih_set_cond w m wp up n 0) wp n = limbs m wp n ∧
    (∀ f, f ≤ 1 →
      (∀ i, i < n → (_gcry_mpih_set_cond w m wp up n f) (wp + i) =
        m (wp + i) ^^^ (limb_sub w 0 f &&& (m (wp + i) ^^^ m (up + i)))) ∧
      limbs (_gcry_mpih_set_cond w m wp up n f) up n = limbs m up n ∧
      (∀ a, (a < wp ∨ wp + n ≤ a) → (_gcry_mpih_set_cond w m wp up n f) a = m a)) := by
  have hu : wp ≤ up ∨ up + n ≤ wp := by omega
  refine ⟨?_, ?_, ?_⟩
  · obtain ⟨_, _, h⟩ := set_cond_spec w m wp up 1 hm n hu
    apply limbs_congr
    intro i hi
    rw [h i hi, blend_enabled w _ _ (hm _) (hm _)]
  · obtain ⟨_, _, h⟩ := set_cond_spec w m wp up 0 hm n hu
    apply limbs_congr
    intro i hi
    rw [h i hi, blend_disabled]
  · intro f hf
    obtain ⟨_, hframe, h⟩ := set_cond_spec w m wp up f hm n hu
    refine ⟨h, ?_, hframe⟩
    apply limbs_congr
    intro i hi
    rcases hsep with h1 | h1
    · subst h1
      rw [h i hi, Nat.xor_self, Nat.and_zero, Nat.xor_zero]
    · exact hframe _ (by omega)

/-- Witness of C6 on 64-bit limbs: `W = [1, 2]` at address 0 and
`U = [2^64 - 1, 5]` at address 2. -/
theorem set_cond_correct_witness :
    limbs (_gcry_mpih_set_cond 64 (memOfList [1, 2, 2 ^ 64 - 1, 5]) 0 2 2 1) 0 2 =
      limbs (memOfList [1, 2, 2 ^ 64 - 1, 5]) 2 2 ∧
    limbs (_gcry_mpih_set_cond 64 (memOfList [1, 2, 2 ^ 64 - 1, 5]) 0 2 2 0) 0 2 =
      limbs (memOfList [1, 2, 2 ^ 64 - 1, 5]) 0 2 ∧
    (∀ f, f ≤ 1 →
      (∀ i, i < 2 → (_gcry_mpih_set_cond 64 (memOfList [1, 2, 2 ^ 64 - 1, 5]) 0 2 2 f) (0 + i) =
        (memOfList [1, 2, 2 ^ 64 - 1, 5]) (0 + i) ^^^
          (limb_sub 64 0 f &&& ((memOfList [1, 2, 2 ^ 64 - 1, 5]) (0 + i) ^^^
            (memOfList [1, 2, 2 ^ 64 - 1, 5]) (2 + i)))) ∧
      limbs (_gcry_mpih_set_cond 64 (memOfList [1, 2, 2 ^ 64 - 1, 5]) 0 2 2 f) 2 2 =
        limbs (memOfList [1, 2, 2 ^ 64 - 1, 5]) 2 2 ∧
      (∀ a, (a < 0 ∨ 0 + 2 ≤ a) →
        (_gcry_mpih_set_cond 64 (memOfList [1, 2, 2 ^ 64 - 1, 5]) 0 2 2 f) a =
          (memOfList [1, 2, 2 ^ 64 - 1, 5]) a)) :=
  set_cond_correct 64 (memOfList [1, 2, 2 ^ 64 - 1, 5]) 0 2 2
    (LimbsOk_memOfList 64 _ (by decide)) (by decide)

theorem swap_cond_succ (w : Nat) (m : Mem) (up vp n f : Nat) :
    _gcry_mpih_swap_cond w m up vp (n + 1) f =
      write (write (_gcry_mpih_swap_cond w m up vp n f) (up + n)
          ((_gcry_mpih_swap_cond w m up vp n f) (up + n) ^^^
            (limb_sub w 0 f &&& ((_gcry_mpih_swap_cond w m up vp n f) (up + n) ^^^
              (_gcry_mpih_swap_cond w m up vp n f) (vp + n)))))
        (vp + n)
        ((write (_gcry_mpih_swap_cond w m up vp n f) (up + n)
            ((_gcry_mpih_swap_cond w m up vp n f) (up + n) ^^^
              (limb_sub w 0 f &&& ((_gcry_mpih_swap_cond w m up vp n f) (up + n) ^^^
                (_gcry_mpih_swap_cond w m up vp n f) (vp + n))))) (vp + n) ^^^
          (limb_sub w 0 f &&& ((_gcry_mpih_swap_cond w m up vp n f) (up + n) ^^^
            (_gcry_mpih_swap_cond w m up vp n f) (vp + n)))) := rfl

/-- What `_gcry_mpih_swap_cond` does for any flag on two arrays that do not
overlap: only `U` and `V` are written and each limb of either becomes its old
value XOR `mask AND (U[i] XOR V[i])`. -/
theorem swap_cond_spec (w : Nat) (m : Mem) (up vp f : Nat) (hm : LimbsOk w m) (n : Nat)
    (hsep : up + n ≤ vp ∨ vp + n ≤ up) :
    LimbsOk w (_gcry_mpih_swap_cond w m up vp n f) ∧
    (∀ a, (a < up ∨ up + n ≤ a) → (a < vp ∨ vp + n ≤ a) →
      (_gcry_mpih_swap_cond w m up vp n f) a = m a) ∧
    (∀ i, i < n → (_gcry_mpih_swap_cond w m up vp n f) (up + i) =
      m (up + i) ^^^ (limb_sub w 0 f &&& (m (up + i) ^^^ m (vp + i)))) ∧
    (∀ i, i < n → (_gcry_mpih_swap_cond w m up vp n f) (vp + i) =
      m (vp + i) ^^^ (limb_sub w 0 f &&& (m (up + i) ^^^ m (vp + i)))) := by
  induction n with
  | zero =>
    exact ⟨hm, fun a _ _ => rfl, fun i hi => absurd hi (Nat.not_lt_zero i),
      fun i hi => absurd hi (Nat.not_lt_zero i)⟩
  | succ n ih =>
    obtain ⟨hok, hframe, hU, hV⟩ := ih (by omega)
    rw [swap_cond_succ]
    generalize _gcry_mpih_swap_cond w m up vp n f = s at hok hframe hU hV ⊢
    rw [write_other s (up + n) _ (vp + n) (by omega),
      hframe (up + n) (by omega) (by omega), hframe (vp + n) (by omega) (by omega)]
    have hx : limb_sub w 0 f &&& (m (up + n) ^^^ m (vp + n)) < 2 ^ w :=
      Nat.and_lt_two_pow _ (Nat.xor_lt_two_pow (hm _) (hm _))
    refine ⟨LimbsOk_write w _ _ _ (LimbsOk_write w _ _ _ hok
      (Nat.xor_lt_two_pow (hm _) hx)) (Nat.xor_lt_two_pow (hm _) hx), ?_, ?_, ?_⟩
    · intro a ha hb
      rw [write_other _ _ _ _ (by omega), write_other _ _ _ _ (by omega)]
      exact hframe a (by omega) (by omega)
    · intro i hi
      rw [write_other _ _ _ _ (by omega)]
      rcases Nat.lt_or_ge i n with h | h
      · rw [write_other _ _ _ _ (by omega)]
        exact hU i h
      · have : i = n := by omega
        subst this
        rw [write_same]
    · intro i hi
      rcases Nat.lt_or_ge i n with h | h
      · rw [write_other _ _ _ _ (by omega), write_other _ _ _ _ (by omega)]
        exact hV i h
      · have : i = n := by omega
        subst this
        rw [write_same]

theorem swap_cond_enabled_at (w : Nat) (m : Mem) (up vp n : Nat) (hm : LimbsOk w m)
    (hsep : up + n ≤ vp ∨ vp + n ≤ up) (i : Nat) (hi : i < n) :
    (_gcry_mpih_swap_cond w m up vp n 1) (up + i) = m (vp + i) ∧
    (_gcry_mpih_swap_cond w m up vp n 1) (vp + i) = m (up + i) := by
  obtain ⟨_, _, hU, hV⟩ := swap_cond_spec w m up vp 1 hm n hsep
  constructor
  · rw [hU i hi, blend_enabled w _ _ (hm _) (hm _)]
  · rw [hV i hi, Nat.xor_comm (m (up + i)) (m (vp + i)), blend_enabled w _ _ (hm _) (hm _)]

/-- C8: `_gcry_mpih_swap_cond` on two `n`-limb arrays `U` and `V` that do not
overlap: with `op_enable = 1` it leaves `U` holding the old `V` and `V` holding
the old `U`, limb for limb; with `op_enable = 0` it leaves both unchanged. -/
theorem swap_cond_correct (w : Nat) (m : Mem) (up vp n : Nat) (hm : LimbsOk w m)
    (hsep : up + n ≤ vp ∨ vp + n ≤ up) :
    limbs (_gcry_mpih_swap_cond w m up vp n 1) up n = limbs m vp n ∧
    limbs (_gcry_mpih_swap_cond w m up vp n 1) vp n = limbs m up n ∧
    limbs (_gcry_mpih_swap_cond w m up vp n 0) up n = limbs m up n ∧
    limbs (_gcry_mpih_swap_cond w m up vp n 0) vp n = limbs m vp n := by
  obtain ⟨_, _, hU, hV⟩ := swap_cond_spec w m up vp 0 hm n hsep
  refine ⟨?_, ?_, ?_, ?_⟩
  · exact limbs_congr _ _ _ _ _ (fun i hi => (swap_cond_enabled_at w m up vp n hm hsep i hi).1)
  · exact limbs_congr _ _ _ _ _ (fun i hi => (swap_cond_enabled_at w m up vp n hm hsep i hi).2)
  · apply limbs_congr
    intro i hi
    rw [hU i hi, blend_disabled]
  · apply limbs_congr
    intro i hi
    rw [hV i hi, limb_sub_zero_zero, Nat.zero_and, Nat.xor_zero]

/-- Witness of C8 on 64-bit limbs: `U = [1, 2]` at address 0 and
`V = [2^64 - 1, 5]` at address 2. -/
theorem swap_cond_correct_witness :
    limbs (_gcry_mpih_swap_cond 64 (memOfList [1, 2, 2 ^ 64 - 1, 5]) 0 2 2 1) 0 2 =
      limbs (memOfList [1, 2, 2 ^ 64 - 1, 5]) 2 2 ∧
    limbs (_gcry_mpih_swap_cond 64 (memOfList [1, 2, 2 ^ 64 - 1, 5]) 0 2 2 1) 2 2 =
      limbs (memOfList [1, 2, 2 ^ 64 - 1, 5]) 0 2 ∧
    limbs (_gcry_mpih_swap_cond 64 (memOfList [1, 2, 2 ^ 64 - 1, 5]) 0 2 2 0) 0 2 =
      limbs (memOfList [1, 2, 2 ^ 64 - 1, 5]) 0 2 ∧
    limbs (_gcry_mpih_swap_cond 64 (memOfList [1, 2, 2 ^ 64 - 1, 5]) 0 2 2 0) 2 2 =
      limbs (memOfList [1, 2, 2 ^ 64 - 1, 5]) 2 2 :=
  swap_cond_correct 64 (memOfList [1, 2, 2 ^ 64 - 1, 5]) 0 2 2
    (LimbsOk_memOfList 64 _ (by decide)) (by decide)

/-- C10: the enabled swap is an involution: for two `n`-limb arrays `U` and
`V` that do not overlap, `_gcry_mpih_swap_cond` with `op_enable = 1` applied
twice restores the original `U` and the original `V`, limb for limb. -/
theorem swap_cond_twice (w : Nat) (m : Mem) (up vp n : Nat) (hm : LimbsOk w m)
    (hsep : up + n ≤ vp ∨ vp + n ≤ up) :
    limbs (_gcry_mpih_swap_cond w (_gcry_mpih_swap_cond w m up vp n 1) up vp n 1) up n =
      limbs m up n ∧
    limbs (_gcry_mpih_swap_cond w (_gcry_mpih_swap_cond w m up vp n 1) up vp n 1) vp n =
      limbs m vp n := by
  have hm1 : LimbsOk w (_gcry_mpih_swap_cond w m up vp n 1) :=
    (swap_cond_spec w m up vp 1 hm n hsep).1
  constructor
  · apply limbs_congr
    intro i hi
    rw [(swap_cond_enabled_at w _ up vp n hm1 hsep i hi).1,
      (swap_cond_enabled_at w m up vp n hm hsep i hi).2]
  · apply limbs_congr
    intro i hi
    rw [(swap_cond_enabled_at w _ up vp n hm1 hsep i hi).2,
      (swap_cond_enabled_at w m up vp n hm hsep i hi).1]

/-- Witness of C10 on 64-bit limbs: `U = [1, 2]` at address 0 and
`V = [2^64 - 1, 5]` at address 2. -/
theorem swap_cond_twice_witness :
    limbs (_gcry_mpih_swap_cond 64
      (_gcry_mpih_swap_cond 64 (memOfList [1, 2, 2 ^ 64 - 1, 5]) 0 2 2 1) 0 2 2 1) 0 2 =
      limbs (memOfList [1, 2, 2 ^ 64 - 1, 5]) 0 2 ∧
    limbs (_gcry_mpih_swap_cond 64
      (_gcry_mpih_swap_cond 64 (memOfList [1, 2, 2 ^ 64 - 1, 5]) 0 2 2 1) 0 2 2 1) 2 2 =
      limbs (memOfList [1, 2, 2 ^ 64 - 1, 5]) 2 2 :=
  swap_cond_twice 64 (memOfList [1, 2, 2 ^ 64 - 1, 5]) 0 2 2
    (LimbsOk_memOfList 64 _ (by decide)) (by decide)

/-- C9: round trip: for all `n`-limb arrays `U` and `V` and a destination `W`
that does not overlap `V` and is `U` itself or does not start inside `U`,
`_gcry_mpih_add_n_cond (W, U, V, n, 1)` followed by
`_gcry_mpih_sub_n_cond (W, W, V, n, 1)` leaves `W` equal to the original `U`
limb for limb, whether or not the addition overflowed. -/
theorem add_sub_round_trip (w : Nat) (m : Mem) (wp up vp n : Nat) (hm : LimbsOk w m)
    (hu : wp ≤ up ∨ up + n ≤ wp) (hv : vp + n ≤ wp ∨ wp + n ≤ vp) :
    limbs (_gcry_mpih_sub_n_cond w (_gcry_mpih_add_n_cond w m wp up vp n 1).1
      wp wp vp n 1).1 wp n = limbs m up n := by
  obtain ⟨a1, a2, a3, a4⟩ :=
    add_n_cond_spec w m wp up vp 1 hm (Nat.le_refl 1) n hu (Or.inr (by omega))
  generalize (_gcry_mpih_add_n_cond w m wp up vp n 1) = sa at a1 a2 a3 a4 ⊢
  obtain ⟨s1, s2, _, s4⟩ :=
    sub_n_cond_spec w sa.1 wp wp vp 1 a1 (Nat.le_refl 1) n (Or.inl (Nat.le_refl wp))
      (Or.inr (by omega))
  generalize (_gcry_mpih_sub_n_cond w sa.1 wp wp vp n 1) = ss at s1 s2 s4 ⊢
  have hV : valueAt w sa.1 vp n = valueAt w m vp n :=
    valueAt_congr w _ _ _ _ _ (fun i hi => a3 (vp + i) (by omega))
  rw [hV] at s4
  rw [Nat.one_mul] at a4 s4
  have h1 := valueAt_lt w ss.1 s1 wp n
  have h2 := valueAt_lt w m hm up n
  apply limbs_eq_of_valueAt_eq w _ _ _ _ s1 hm
  have ha : sa.2 = 0 ∨ sa.2 = 1 := by omega
  have hs : ss.2 = 0 ∨ ss.2 = 1 := by omega
  rcases ha with ha | ha <;> rcases hs with hs | hs <;> rw [ha] at a4 <;> rw [hs] at s4 <;>
    omega

/-- Witness of C9 on 64-bit limbs, with an addition that overflows:
`U = [2^64 - 1, 2^64 - 1]` at address 0, `V = [1, 0]` at address 2 and the
destination at address 4. -/
theorem add_sub_round_trip_witness :
    limbs (_gcry_mpih_sub_n_cond 64
      (_gcry_mpih_add_n_cond 64 (memOfList [2 ^ 64 - 1, 2 ^ 64 - 1, 1, 0]) 4 0 2 2 1).1
      4 4 2 2 1).1 4 2 = limbs (memOfList [2 ^ 64 - 1, 2 ^ 64 - 1, 1, 0]) 0 2 :=
  add_sub_round_trip 64 (memOfList [2 ^ 64 - 1, 2 ^ 64 - 1, 1, 0]) 4 0 2 2
    (LimbsOk_memOfList 64 _ (by decide)) (by decide) (by decide)

/-! ## Conditional negation -/

theorem not_limb_step (w u cy : Nat) (hw : 0 < w) (hu : u < 2 ^ w) (hc : cy ≤ 1) :
    limb_add w (limb_not w u) cy < 2 ^ w ∧
    (if limb_add w (limb_not w u) cy < limb_not w u then 1 else 0) ≤ 1 ∧
    limb_add w (limb_not w u) cy + u + 1 +
      (if limb_add w (limb_not w u) cy < limb_not w u then 1 else 0) * 2 ^ w =
      2 ^ w + cy := by
  have hB : 1 < 2 ^ w := Nat.one_lt_two_pow (Nat.pos_iff_ne_zero.mp hw)
  unfold limb_add limb_not
  rw [Nat.mod_eq_of_lt hu]
  generalize 2 ^ w = B at hu hB ⊢
  have h1 := mod_of_lt_two_mul B (B - 1 - u + cy) (by omega)
  refine ⟨Nat.mod_lt _ (by omega), ?_, ?_⟩
  · split_ifs <;> decide
  · rcases h1 with ⟨h1a, h1b⟩ | ⟨h1a, h1b⟩ <;> rw [h1b] <;> split_ifs <;> omega

theorem abs_cond_loop_succ (w : Nat) (m : Mem) (wp up n f : Nat) :
    abs_cond_loop w m wp up (n + 1) f =
      (write (abs_cond_loop w m wp up n f).1 (wp + n)
        ((abs_cond_loop w m wp up n f).1 (up + n) ^^^
          (limb_sub w 0 f &&&
            (limb_add w (limb_not w ((abs_cond_loop w m wp up n f).1 (up + n)))
              (abs_cond_loop w m wp up n f).2 ^^^ (abs_cond_loop w m wp up n f).1 (up + n)))),
       if limb_add w (limb_not w ((abs_cond_loop w m wp up n f).1 (up + n)))
          (abs_cond_loop w m wp up n f).2 <
            limb_not w ((abs_cond_loop w m wp up n f).1 (up + n)) then 1 else 0) := rfl

theorem limb_add_lt (w a b : Nat) : limb_add w a b < 2 ^ w :=
  Nat.mod_lt _ (Nat.two_pow_pos w)

/-- What the loop of `_gcry_mpih_abs_cond` does for a flag `f` that is 0 or 1:
only `W` is written; for `f = 0` it is a copy of `U`; for `f = 1` (and a limb
of at least one bit) `value W + value U + cy * 2 ^ (w * n) = 2 ^ (w * n)`. -/
theorem abs_cond_spec (w : Nat) (m : Mem) (wp up f : Nat) (hm : LimbsOk w m) (hf : f ≤ 1)
    (n : Nat) (hu : wp ≤ up ∨ up + n ≤ wp) :
    LimbsOk w (abs_cond_loop w m wp up n f).1 ∧
    (abs_cond_loop w m wp up n f).2 ≤ 1 ∧
    (∀ a, (a < wp ∨ wp + n ≤ a) → (abs_cond_loop w m wp up n f).1 a = m a) ∧
    (f = 0 → ∀ i, i < n → (abs_cond_loop w m wp up n f).1 (wp + i) = m (up + i)) ∧
    (0 < w → f = 1 →
      valueAt w (abs_cond_loop w m wp up n f).1 wp n + valueAt w m up n +
        (abs_cond_loop w m wp up n f).2 * 2 ^ (w * n) = 2 ^ (w * n)) := by
  induction n with
  | zero =>
    refine ⟨hm, ?_, fun a _ => rfl, fun _ i hi => absurd hi (Nat.not_lt_zero i), ?_⟩
    · show f % 2 ^ w ≤ 1
      exact Nat.le_trans (Nat.mod_le _ _) hf
    · intro hw h1
      subst h1
      have hB : 1 < 2 ^ w := Nat.one_lt_two_pow (Nat.pos_iff_ne_zero.mp hw)
      show valueAt w m wp 0 + valueAt w m up 0 + 1 % 2 ^ w * 2 ^ (w * 0) = 2 ^ (w * 0)
      rw [valueAt_zero, valueAt_zero, Nat.mod_eq_of_lt hB]
      simp
  | succ n ih =>
    obtain ⟨hok, hcy, hframe, hzero, hval⟩ := ih (by omega)
    rw [abs_cond_loop_succ]
    generalize abs_cond_loop w m wp up n f = s at hok hcy hframe hzero hval ⊢
    rw [hframe (up + n) (by omega)]
    refine ⟨LimbsOk_write w _ _ _ hok ?_, ?_, ?_, ?_, ?_⟩
    · rw [Nat.xor_comm (limb_add w _ _)]
      exact blend_lt w f _ _ (hm _) (limb_add_lt w _ _)
    · show (if _ then 1 else 0) ≤ 1
      split_ifs <;> decide
    · intro a ha
      show (write s.1 (wp + n) _) a = m a
      rw [write_other _ _ _ _ (by omega)]
      exact hframe a (by omega)
    · intro h0 i hi
      show (write s.1 (wp + n) _) (wp + i) = m (up + i)
      rcases Nat.lt_or_ge i n with h | h
      · rw [write_other _ _ _ _ (by omega)]
        exact hzero h0 i h
      · have : i = n := by omega
        subst this
        subst h0
        rw [write_same, Nat.xor_comm (limb_add w _ _), blend_disabled]
    · intro hw h1
      have hval2 := hval hw h1
      clear hval
      subst h1
      obtain ⟨_, _, h3⟩ := not_limb_step w (m (up + n)) s.2 hw (hm _) hcy
      show valueAt w (write s.1 (wp + n) _) wp (n + 1) + _ +
        (if _ then 1 else 0) * 2 ^ (w * (n + 1)) = 2 ^ (w * (n + 1))
      rw [valueAt_succ, valueAt_succ, write_same,
        valueAt_write_above w s.1 wp n (wp + n) _ (by omega), Nat.mul_succ, Nat.pow_add,
        Nat.xor_comm (limb_add w _ _), blend_enabled w _ _ (hm _) (limb_add_lt w _ _)]
      generalize valueAt w s.1 wp n = VW at hval2 ⊢
      generalize valueAt w m up n = VU at hval2 ⊢
      generalize 2 ^ (w * n) = P at hval2 ⊢
      generalize limb_add w (limb_not w (m (up + n))) s.2 = x2 at h3 ⊢
      generalize (if x2 < limb_not w (m (up + n)) then 1 else 0) = c2 at h3 ⊢
      have h4 : (x2 + m (up + n) + 1 + c2 * 2 ^ w) * P = (2 ^ w + s.2) * P := by rw [h3]
      linarith [hval2, h4]

/-- C7: `_gcry_mpih_abs_cond` on an `n`-limb array `U` with a destination `W`
that is `U` itself or does not start inside `U`: with `op_enable = 1` it
writes the `n`-limb two's complement negation of `U`, that is `W` is an array
of limbs with `value W = (2 ^ (n * w) - value U) mod 2 ^ (n * w)` (so `U = 0`
gives `W = 0`); with `op_enable = 0` it writes `W` equal to `U` limb for
limb. -/
theorem abs_cond_correct (w : Nat) (m : Mem) (wp up n : Nat) (hm : LimbsOk w m)
    (hu : wp ≤ up ∨ up + n ≤ wp) :
    (∀ x ∈ limbs (_gcry_mpih_abs_cond w m wp up n 1) wp n, x < 2 ^ w) ∧
    valueAt w (_gcry_mpih_abs_cond w m wp up n 1) wp n =
      (2 ^ (n * w) - valueAt w m up n) % 2 ^ (n * w) ∧
    limbs (_gcry_mpih_abs_cond w m wp up n 0) wp n = limbs m up n := by
  obtain ⟨h1, h2, _, _, h5⟩ := abs_cond_spec w m wp up 1 hm (Nat.le_refl 1) n hu
  obtain ⟨_, _, _, z4, _⟩ := abs_cond_spec w m wp up 0 hm (Nat.zero_le 1) n hu
  refine ⟨?_, ?_, limbs_congr _ _ _ _ _ (z4 rfl)⟩
  · intro x hx
    obtain ⟨i, _, rfl⟩ := List.mem_map.mp hx
    exact h1 _
  · have hW := valueAt_lt w _ h1 wp n
    have hU := valueAt_lt w m hm up n
    rw [Nat.mul_comm n w]
    show valueAt w (abs_cond_loop w m wp up n 1).1 wp n = _
    rcases Nat.eq_zero_or_pos w with hw | hw
    · subst hw
      simp only [Nat.zero_mul, Nat.pow_zero, Nat.mod_one] at hW ⊢
      omega
    · have h5 := h5 hw rfl
      generalize abs_cond_loop w m wp up n 1 = s at h1 h2 h5 hW ⊢
      have hP : 0 < 2 ^ (w * n) := Nat.two_pow_pos _
      generalize 2 ^ (w * n) = P at h5 hW hU hP ⊢
      have hc : s.2 = 0 ∨ s.2 = 1 := by omega
      rcases hc with hc | hc <;> rw [hc] at h5
      · have e : P - valueAt w m up n = valueAt w s.1 wp n := by omega
        rw [e, Nat.mod_eq_of_lt hW]
      · have e1 : valueAt w m up n = 0 := by omega
        have e2 : valueAt w s.1 wp n = 0 := by omega
        rw [e1, e2, Nat.sub_zero, Nat.mod_self]

/-- Witness of C7 on 64-bit limbs: `U = [0, 1]` at address 0 and the
destination at address 2. -/
theorem abs_cond_correct_witness :
    (∀ x ∈ limbs (_gcry_mpih_abs_cond 64 (memOfList [0, 1]) 2 0 2 1) 2 2, x < 2 ^ 64) ∧
    valueAt 64 (_gcry_mpih_abs_cond 64 (memOfList [0, 1]) 2 0 2 1) 2 2 =
      (2 ^ (2 * 64) - valueAt 64 (memOfList [0, 1]) 0 2) % 2 ^ (2 * 64) ∧
    limbs (_gcry_mpih_abs_cond 64 (memOfList [0, 1]) 2 0 2 0) 2 2 =
      limbs (memOfList [0, 1]) 0 2 :=
  abs_cond_correct 64 (memOfList [0, 1]) 2 0 2
    (LimbsOk_memOfList 64 _ (by decide)) (by decide)

/-! ## The reduction `_gcry_mpih_mod` -/

theorem storeValue_read_in (w : Nat) (m : Mem) (p n v i : Nat) (hi : i < n) :
    (storeValue w m p n v) (p + i) = (v / 2 ^ (w * i)) % 2 ^ w := by
  show (if p ≤ p + i ∧ p + i < p + n then (v / 2 ^ (w * (p + i - p))) % 2 ^ w
    else m (p + i)) = _
  rw [if_pos ⟨Nat.le_add_right p i, by omega⟩, Nat.add_sub_cancel_left]

theorem storeValue_read_out (w : Nat) (m : Mem) (p n v a : Nat) (ha : a < p ∨ p + n ≤ a) :
    (storeValue w m p n v) a = m a := by
  show (if p ≤ a ∧ a < p + n then (v / 2 ^ (w * (a - p))) % 2 ^ w else m a) = _
  rw [if_neg (by omega)]

theorem LimbsOk_storeValue (w : Nat) (m : Mem) (p n v : Nat) (hm : LimbsOk w m) :
    LimbsOk w (storeValue w m p n v) := by
  intro a
  show (if p ≤ a ∧ a < p + n then (v / 2 ^ (w * (a - p))) % 2 ^ w else m a) < 2 ^ w
  split_ifs
  · exact Nat.mod_lt _ (Nat.two_pow_pos w)
  · exact hm a

theorem valueAt_storeValue_le (w : Nat) (m : Mem) (p n v k : Nat) (hk : k ≤ n) :
    valueAt w (storeValue w m p n v) p k = v % 2 ^ (w * k) := by
  induction k with
  | zero => simp [valueAt_zero, Nat.mod_one]
  | succ k ih =>
    rw [valueAt_succ, ih (by omega), storeValue_read_in w m p n v k (by omega),
      Nat.mul_succ, Nat.pow_add, Nat.mod_mul, Nat.mul_comm (2 ^ (w * k))]

theorem valueAt_storeValue (w : Nat) (m : Mem) (p n v : Nat) :
    valueAt w (storeValue w m p n v) p n = v % 2 ^ (w * n) :=
  valueAt_storeValue_le w m p n v n (Nat.le_refl n)

theorem MPN_ZERO_spec (w : Nat) (m : Mem) (d : Nat) (hm : LimbsOk w m) (n : Nat) :
    LimbsOk w (MPN_ZERO m d n) ∧
    (∀ a, (a < d ∨ d + n ≤ a) → (MPN_ZERO m d n) a = m a) ∧
    valueAt w (MPN_ZERO m d n) d n = 0 := by
  induction n with
  | zero => exact ⟨hm, fun a _ => rfl, valueAt_zero w m d⟩
  | succ n ih =>
    obtain ⟨hok, hframe, hval⟩ := ih
    have e : MPN_ZERO m d (n + 1) = write (MPN_ZERO m d n) (d + n) 0 := rfl
    rw [e]
    refine ⟨LimbsOk_write w _ _ _ hok (Nat.two_pow_pos w), ?_, ?_⟩
    · intro a ha
      rw [write_other _ _ _ _ (by omega)]
      exact hframe a (by omega)
    · rw [valueAt_succ, write_same, valueAt_write_above w _ d n (d + n) 0 (by omega), hval,
        Nat.zero_mul]

theorem valueAt_write_first (w : Nat) (m : Mem) (p n x : Nat) (hn : 0 < n) :
    valueAt w (write m (p + 0) x) p n + m (p + 0) = valueAt w m p n + x := by
  induction n with
  | zero => exact absurd hn (Nat.lt_irrefl 0)
  | succ n ih =>
    rcases Nat.eq_zero_or_pos n with h | h
    · subst h
      rw [valueAt_succ, valueAt_succ, valueAt_zero, valueAt_zero, write_same]
      simp only [Nat.mul_zero, Nat.pow_zero, Nat.mul_one, Nat.zero_add, Nat.add_zero]
      exact Nat.add_comm _ _
    · have ih := ih h
      rw [valueAt_succ, valueAt_succ, write_other _ _ _ _ (by omega)]
      omega

theorem valueAt_mod_pow (w : Nat) (m : Mem) (p : Nat) (hm : LimbsOk w m) (k d : Nat) :
    valueAt w m p (k + d) % 2 ^ (w * k) = valueAt w m p k := by
  induction d with
  | zero => exact Nat.mod_eq_of_lt (valueAt_lt w m hm p k)
  | succ d ih =>
    have e : 2 ^ (w * (k + d)) = 2 ^ (w * k) * 2 ^ (w * d) := by
      rw [Nat.mul_add, Nat.pow_add]
    rw [← Nat.add_assoc, valueAt_succ, e, ← Nat.mul_assoc, Nat.mul_comm _ (2 ^ (w * k)),
      Nat.mul_assoc, Nat.add_mul_mod_self_left, ih]

theorem valueAt_limb (w : Nat) (m : Mem) (p n k : Nat) (hm : LimbsOk w m) (hk : k < n) :
    (valueAt w m p n / 2 ^ (w * k)) % 2 ^ w = m (p + k) := by
  have h1 := valueAt_mod_pow w m p hm (k + 1) (n - (k + 1))
  have h2 := valueAt_mod_pow w m p hm k (n - k)
  have e1 : k + 1 + (n - (k + 1)) = n := by omega
  have e2 : k + (n - k) = n := by omega
  rw [e1] at h1
  rw [e2] at h2
  rw [valueAt_succ, Nat.mul_succ, Nat.pow_add, Nat.mod_mul, h2] at h1
  have h3 : 2 ^ (w * k) * (valueAt w m p n / 2 ^ (w * k) % 2 ^ w) =
      2 ^ (w * k) * m (p + k) := by
    rw [Nat.mul_comm _ (m (p + k))]; omega
  exact Nat.eq_of_mul_eq_mul_left (Nat.two_pow_pos _) h3

/-- The bit that `_gcry_mpih_mod` extracts from limb `j / w` of `V` at
position `j % w` is bit `j` of the number `V`. -/
theorem the_bit_eq (w : Nat) (m : Mem) (vp vsize j : Nat) (hw : 0 < w) (hm : LimbsOk w m)
    (hj : j < vsize * w) :
    (if m (vp + j / w) &&& ((1 <<< (j % w)) % 2 ^ w) ≠ 0 then 1 else 0) =
      (valueAt w m vp vsize / 2 ^ j) % 2 := by
  have hb : j % w < w := Nat.mod_lt _ hw
  have hk : j / w < vsize := (Nat.div_lt_iff_lt_mul hw).mpr hj
  have h2 : (1 <<< (j % w)) % 2 ^ w = 2 ^ (j % w) := by
    rw [Nat.one_shiftLeft]
    exact Nat.mod_eq_of_lt (Nat.pow_lt_pow_right (by decide) hb)
  have h3 : (m (vp + j / w)).testBit (j % w) = (valueAt w m vp vsize).testBit j := by
    rw [← valueAt_limb w m vp vsize (j / w) hm hk, Nat.testBit_mod_two_pow,
      ← Nat.shiftRight_eq_div_pow, Nat.testBit_shiftRight, Nat.div_add_mod]
    simp [hb]
  rw [h2, Nat.and_two_pow, h3, ← Nat.toNat_testBit]
  cases (valueAt w m vp vsize).testBit j <;> simp

theorem even_or_bit (w x b : Nat) (hw : 0 < w) (hb : b ≤ 1) :
    (x * 2 ^ 1 / 2 ^ (w * 0)) % 2 ^ w ||| b = (x * 2 ^ 1 / 2 ^ (w * 0)) % 2 ^ w + b := by
  obtain ⟨k, rfl⟩ : ∃ k, w = k + 1 := ⟨w - 1, by omega⟩
  have e1 : x * 2 ^ 1 / 2 ^ ((k + 1) * 0) = 2 * x := by
    rw [Nat.mul_zero, Nat.pow_zero, Nat.div_one, Nat.pow_one, Nat.mul_comm]
  have e2 : 2 ^ (k + 1) = 2 * 2 ^ k := by
    rw [Nat.pow_succ, Nat.mul_comm]
  have e3 := Nat.mul_add_lt_is_or (show b < 2 ^ 1 by omega) (x % 2 ^ k)
  rw [Nat.pow_one] at e3
  rw [e1, e2, Nat.mul_mod_mul_left]
  exact e3.symm

/-- One iteration of the loop of `_gcry_mpih_mod`, with `R` overlapping
neither `U` nor `V`: only `R` is written and its value goes from `r` to
`modStep (2 ^ (w * usize)) (value U) r (bit of V)`. -/
theorem mod_loop_body_spec (w : Nat) (m : Mem) (rp vp vsize up usize i : Nat) (hw : 0 < w)
    (hn : 0 < usize) (hm : LimbsOk w m) (hU : up + usize ≤ rp ∨ rp + usize ≤ up)
    (hi : i < vsize * w) :
    LimbsOk w (mod_loop_body w rp vp vsize up usize i m) ∧
    (∀ a, (a < rp ∨ rp + usize ≤ a) → (mod_loop_body w rp vp vsize up usize i m) a = m a) ∧
    valueAt w (mod_loop_body w rp vp vsize up usize i m) rp usize =
      modStep (2 ^ (w * usize)) (valueAt w m up usize) (valueAt w m rp usize)
        ((valueAt w m vp vsize / 2 ^ (vsize * w - 1 - i)) % 2) := by
  unfold mod_loop_body _gcry_mpih_lshift _gcry_mpih_sub_n
  dsimp only
  rw [the_bit_eq w m vp vsize _ hw hm (by omega), Nat.mul_comm usize w]
  have hb1 : valueAt w m vp vsize / 2 ^ (vsize * w - 1 - i) % 2 ≤ 1 := by omega
  generalize valueAt w m vp vsize / 2 ^ (vsize * w - 1 - i) % 2 = b at hb1 ⊢
  have hB : 1 < 2 ^ w := Nat.one_lt_two_pow (Nat.pos_iff_ne_zero.mp hw)
  -- the shift
  have hR1 := valueAt_storeValue w m rp usize (valueAt w m rp usize * 2 ^ 1)
  have hok1 := LimbsOk_storeValue w m rp usize (valueAt w m rp usize * 2 ^ 1) hm
  have hfr1 := storeValue_read_out w m rp usize (valueAt w m rp usize * 2 ^ 1)
  have h0 := storeValue_read_in w m rp usize (valueAt w m rp usize * 2 ^ 1) 0 hn
  have hor := even_or_bit w (valueAt w m rp usize) b hw hb1
  rw [← h0] at hor
  generalize storeValue w m rp usize (valueAt w m rp usize * 2 ^ 1) = m1 at hR1 hok1 hfr1 hor ⊢
  -- the injected bit
  have hx : m1 (rp + 0) ||| b < 2 ^ w := Nat.or_lt_two_pow (hok1 _) (by omega)
  have hok2 := LimbsOk_write w m1 (rp + 0) _ hok1 hx
  have hR2 := valueAt_write_first w m1 rp usize (m1 (rp + 0) ||| b) hn
  have hfr2 : ∀ a, (a < rp ∨ rp + usize ≤ a) →
      (write m1 (rp + 0) (m1 (rp + 0) ||| b)) a = m a := by
    intro a ha
    rw [write_other _ _ _ _ (by omega)]
    exact hfr1 a ha
  generalize write m1 (rp + 0) (m1 (rp + 0) ||| b) = m2 at hok2 hR2 hfr2 ⊢
  have hu2 : valueAt w m2 up usize = valueAt w m up usize :=
    valueAt_congr w m2 m up up usize (fun k hk => hfr2 (up + k) (by omega))
  have hs : valueAt w m2 rp usize = (2 * valueAt w m rp usize) % 2 ^ (w * usize) + b := by
    rw [Nat.pow_one, Nat.mul_comm] at hR1
    omega
  have hs_lt := valueAt_lt w m2 hok2 rp usize
  have hu_lt := valueAt_lt w m hm up usize
  rw [hs] at hs_lt
  rw [hu2, hs]
  unfold modStep
  generalize (2 * valueAt w m rp usize) % 2 ^ (w * usize) + b = s at hs hs_lt ⊢
  generalize valueAt w m up usize = u at hu2 hu_lt ⊢
  rw [Nat.mod_eq_of_lt hu_lt]
  -- the subtraction
  have hR3 := valueAt_storeValue w m2 rp usize (s + 2 ^ (w * usize) - u)
  have hok3 := LimbsOk_storeValue w m2 rp usize (s + 2 ^ (w * usize) - u) hok2
  have hfr3 := storeValue_read_out w m2 rp usize (s + 2 ^ (w * usize) - u)
  generalize storeValue w m2 rp usize (s + 2 ^ (w * usize) - u) = m3 at hR3 hok3 hfr3 ⊢
  have hu3 : valueAt w m3 up usize = u := by
    rw [← hu2]
    exact valueAt_congr w m3 m2 up up usize (fun k hk => hfr3 (up + k) (by omega))
  -- the conditional addition
  have hf : (if s < u then 1 else 0) ≤ 1 := by split_ifs <;> decide
  obtain ⟨a1, a2, a3, a4⟩ := add_n_cond_spec w m3 rp rp up (if s < u then 1 else 0) hok3 hf
    usize (Or.inl (Nat.le_refl rp)) (Or.inr (by omega))
  have ha_lt := valueAt_lt w _ a1 rp usize
  rw [hR3, hu3] at a4
  generalize _gcry_mpih_add_n_cond w m3 rp rp up usize (if s < u then 1 else 0) = r
    at a1 a2 a3 a4 ha_lt ⊢
  refine ⟨a1, ?_, ?_⟩
  · intro a ha
    rw [a3 a ha, hfr3 a ha, hfr2 a ha]
  · have h2 := mod_of_lt_two_mul (2 ^ (w * usize)) (s + 2 ^ (w * usize) - u) (by omega)
    generalize 2 ^ (w * usize) = N at *
    have hc : r.2 = 0 ∨ r.2 = 1 := by omega
    split_ifs at a4 ⊢ with hlt <;> rcases hc with hc | hc <;> rw [hc] at a4 <;>
      rcases h2 with ⟨h2a, h2b⟩ | ⟨h2a, h2b⟩ <;> rw [h2b] at a4 <;> omega

/-- After `k` iterations of the loop of `_gcry_mpih_mod` only `R` has been
written and its value is `modVal ... k`. -/
theorem mod_loop_spec (w : Nat) (m : Mem) (rp vp vsize up usize : Nat) (hw : 0 < w)
    (hn : 0 < usize) (hm : LimbsOk w m) (hU : up + usize ≤ rp ∨ rp + usize ≤ up)
    (hV : vp + vsize ≤ rp ∨ rp + usize ≤ vp) (k : Nat) (hk : k ≤ vsize * w) :
    LimbsOk w (forLoop (mod_loop_body w rp vp vsize up usize) (MPN_ZERO m rp usize) k) ∧
    (∀ a, (a < rp ∨ rp + usize ≤ a) →
      (forLoop (mod_loop_body w rp vp vsize up usize) (MPN_ZERO m rp usize) k) a = m a) ∧
    valueAt w (forLoop (mod_loop_body w rp vp vsize up usize) (MPN_ZERO m rp usize) k)
        rp usize =
      modVal (2 ^ (w * usize)) (valueAt w m up usize) (valueAt w m vp vsize) (vsize * w) k := by
  induction k with
  | zero => exact MPN_ZERO_spec w m rp hm usize
  | succ k ih =>
    obtain ⟨hok, hframe, hval⟩ := ih (by omega)
    have e : forLoop (mod_loop_body w rp vp vsize up usize) (MPN_ZERO m rp usize) (k + 1) =
        mod_loop_body w rp vp vsize up usize k
          (forLoop (mod_loop_body w rp vp vsize up usize) (MPN_ZERO m rp usize) k) := rfl
    rw [e]
    generalize forLoop (mod_loop_body w rp vp vsize up usize) (MPN_ZERO m rp usize) k = mk
      at hok hframe hval ⊢
    obtain ⟨b1, b2, b3⟩ := mod_loop_body_spec w mk rp vp vsize up usize k hw hn hok hU
      (by omega)
    have hu : valueAt w mk up usize = valueAt w m up usize :=
      valueAt_congr w mk m up up usize (fun i hi => hframe (up + i) (by omega))
    have hv : valueAt w mk vp vsize = valueAt w m vp vsize :=
      valueAt_congr w mk m vp vp vsize (fun i hi => hframe (vp + i) (by omega))
    rw [hu, hv, hval] at b3
    refine ⟨b1, ?_, ?_⟩
    · intro a ha
      rw [b2 a ha, hframe a ha]
    · rw [b3]
      rfl

/-- The running remainder stays below the modulus, whatever the capacity
`N` of `R` is. -/
theorem modVal_lt (N u v t : Nat) (hu : 0 < u) (k : Nat) : modVal N u v t k < u := by
  induction k with
  | zero => exact hu
  | succ k ih =>
    show modStep N u (modVal N u v t k) ((v / 2 ^ (t - 1 - k)) % 2) < u
    unfold modStep
    have h1 : (2 * modVal N u v t k) % N ≤ 2 * modVal N u v t k := Nat.mod_le _ _
    have h2 : (v / 2 ^ (t - 1 - k)) % 2 < 2 := Nat.mod_lt _ (by decide)
    split_ifs <;> omega

/-- When twice the modulus fits in `R` (`2 * u ≤ N`), the running remainder
after `k` iterations is the number made of the `k` most significant bits of
`v`, reduced modulo `u`. -/
theorem modVal_correct (N u v t : Nat) (hu : 0 < u) (hN : 2 * u ≤ N) (hv : v < 2 ^ t)
    (k : Nat) (hk : k ≤ t) :
    modVal N u v t k = (v / 2 ^ (t - k)) % u := by
  induction k with
  | zero =>
    show 0 = _
    rw [Nat.sub_zero, Nat.div_eq_of_lt hv, Nat.zero_mod]
  | succ k ih =>
    have ih := ih (by omega)
    show modStep N u (modVal N u v t k) ((v / 2 ^ (t - 1 - k)) % 2) = _
    rw [ih]
    unfold modStep
    have e1 : t - k = (t - 1 - k) + 1 := by omega
    have e2 : t - (k + 1) = t - 1 - k := by omega
    have hq : v / 2 ^ (t - k) = v / 2 ^ (t - 1 - k) / 2 := by
      rw [e1, Nat.pow_succ, Nat.div_div_eq_div_mul]
    rw [e2, hq]
    generalize v / 2 ^ (t - 1 - k) = q
    have hr : q / 2 % u < u := Nat.mod_lt _ hu
    have h1 : (2 * (q / 2 % u)) % N = 2 * (q / 2 % u) := Nat.mod_eq_of_lt (by omega)
    have h2 : q % 2 < 2 := Nat.mod_lt _ (by decide)
    have h3 : q % u = (2 * (q / 2 % u) + q % 2) % u := by
      conv_lhs => rw [← Nat.div_add_mod q 2]
      rw [Nat.add_mod, Nat.mul_mod, Nat.add_mod (2 * (q / 2 % u)), Nat.mul_mod 2 (q / 2 % u),
        Nat.mod_mod]
    rw [h1, h3]
    have h4 := mod_of_lt_two_mul u (2 * (q / 2 % u) + q % 2) (by omega)
    rcases h4 with ⟨h4a, h4b⟩ | ⟨h4a, h4b⟩ <;> rw [h4b] <;> split_ifs <;> omega

/-- For a modulus `U` with `0 < value U` and `2 * value U ≤ 2 ^ (w * usize)`,
and a result buffer that overlaps neither `U` nor `V`, `_gcry_mpih_mod`
leaves `value V mod value U` in the result buffer. -/
theorem mpih_mod_small_modulus (w : Nat) (m : Mem) (rp vp vsize up usize : Nat) (hw : 0 < w)
    (hm : LimbsOk w m) (hU : up + usize ≤ rp ∨ rp + usize ≤ up)
    (hV : vp + vsize ≤ rp ∨ rp + usize ≤ vp) (hpos : 0 < valueAt w m up usize)
    (hsmall : 2 * valueAt w m up usize ≤ 2 ^ (w * usize)) :
    valueAt w (_gcry_mpih_mod w m rp vp vsize up usize) rp usize =
      valueAt w m vp vsize % valueAt w m up usize := by
  have hn : 0 < usize := by
    rcases Nat.eq_zero_or_pos usize with h | h
    · subst h; rw [valueAt_zero] at hpos; exact absurd hpos (Nat.lt_irrefl 0)
    · exact h
  obtain ⟨_, _, h3⟩ := mod_loop_spec w m rp vp vsize up usize hw hn hm hU hV (vsize * w)
    (Nat.le_refl _)
  have hv := valueAt_lt w m hm vp vsize
  rw [Nat.mul_comm w vsize] at hv
  show valueAt w (forLoop (mod_loop_body w rp vp vsize up usize) (MPN_ZERO m rp usize)
    (vsize * w)) rp usize = _
  rw [h3, modVal_correct _ _ _ _ hpos hsmall hv (vsize * w) (Nat.le_refl _), Nat.sub_self,
    Nat.pow_zero, Nat.div_one]

set_option maxRecDepth 100000 in
/-- C1 (the code departs from it): on 64-bit limbs, for the two-limb value
`V = [0, 1]` (the number `2 ^ 64`, at address 0) and the one-limb modulus
`U = [2 ^ 64 - 1]` (at address 2), with the result buffer at address 3,
`_gcry_mpih_mod` returns the limb array `[0]`, whereas `V mod U = 1`: the bit
that the one-bit left shift of `R` moves out of its `usize` limbs is lost. -/
theorem mpih_mod_large_modulus_wrong :
    limbs (_gcry_mpih_mod 64 (memOfList [0, 1, 2 ^ 64 - 1]) 3 0 2 2 1) 3 1 = [0] ∧
    valueAt 64 (_gcry_mpih_mod 64 (memOfList [0, 1, 2 ^ 64 - 1]) 3 0 2 2 1) 3 1 = 0 ∧
    valueAt 64 (memOfList [0, 1, 2 ^ 64 - 1]) 0 2 = 2 ^ 64 ∧
    valueAt 64 (memOfList [0, 1, 2 ^ 64 - 1]) 2 1 = 2 ^ 64 - 1 ∧
    valueAt 64 (memOfList [0, 1, 2 ^ 64 - 1]) 0 2 %
      valueAt 64 (memOfList [0, 1, 2 ^ 64 - 1]) 2 1 = 1 := by
  decide

set_option maxRecDepth 100000 in
/-- C2 as stated fails: on 64-bit limbs, for the two-limb value `V = [802, 0]`
(at address 0) and the one-limb modulus `U = [97]` (at address 2), with the
result buffer at address 3, the result of `_gcry_mpih_mod` does not represent
23. -/
theorem mpih_mod_example_not_23 :
    ¬ valueAt 64 (_gcry_mpih_mod 64 (memOfList [802, 0, 97]) 3 0 2 2 1) 3 1 = 23 := by
  decide

/-- C2, amended: `_gcry_mpih_mod` applied to a modulus `U` representing 97 and
the two-limb value `V` with limbs `[802, 0]` yields a result representing
`26 = 802 mod 97`, for every limb width and any number of limbs of `U`; the
result buffer `R` overlaps neither `U` nor `V`. -/
theorem mpih_mod_802_97 (w : Nat) (m : Mem) (rp vp up usize : Nat) (hm : LimbsOk w m)
    (hU : up + usize ≤ rp ∨ rp + usize ≤ up) (hV : vp + 2 ≤ rp ∨ rp + usize ≤ vp)
    (hv : limbs m vp 2 = [802, 0]) (hu : valueAt w m up usize = 97) :
    valueAt w (_gcry_mpih_mod w m rp vp 2 up usize) rp usize = 26 := by
  have h0 : m (vp + 0) = 802 := by
    have := congrArg (fun l => l.getD 0 0) hv
    simpa [limbs] using this
  have h802 : 802 < 2 ^ w := by rw [← h0]; exact hm _
  have hw : 0 < w := by
    rcases Nat.eq_zero_or_pos w with h | h
    · subst h; omega
    · exact h
  have hn : 0 < usize := by
    rcases Nat.eq_zero_or_pos usize with h | h
    · subst h; rw [valueAt_zero] at hu; omega
    · exact h
  have hle : 2 ^ w ≤ 2 ^ (w * usize) :=
    Nat.pow_le_pow_right (by decide) (Nat.le_mul_of_pos_right w hn)
  have hvv : valueAt w m vp 2 = 802 := by
    unfold valueAt
    rw [hv]
    simp [value]
  rw [mpih_mod_small_modulus w m rp vp 2 up usize hw hm hU hV (by omega) (by omega), hu, hvv]

/-- Witness of the amended C2 on 64-bit limbs: `V = [802, 0]` at address 0,
`U = [97]` at address 2 and the result buffer at address 3. -/
theorem mpih_mod_802_97_witness :
    valueAt 64 (_gcry_mpih_mod 64 (memOfList [802, 0, 97]) 3 0 2 2 1) 3 1 = 26 :=
  mpih_mod_802_97 64 (memOfList [802, 0, 97]) 3 0 2 1
    (LimbsOk_memOfList 64 _ (by decide)) (by decide) (by decide) (by decide) (by decide)

/-! ## Further properties of the conditional operations -/

/-- The enabled `_gcry_mpih_abs_cond` on values: the memory stays a memory of
limbs and `value W = (2 ^ (w * n) - value U) mod 2 ^ (w * n)`. -/
theorem abs_cond_enabled_value (w : Nat) (m : Mem) (wp up n : Nat) (hm : LimbsOk w m)
    (hu : wp ≤ up ∨ up + n ≤ wp) :
    LimbsOk w (_gcry_mpih_abs_cond w m wp up n 1) ∧
    valueAt w (_gcry_mpih_abs_cond w m wp up n 1) wp n =
      (2 ^ (w * n) - valueAt w m up n) % 2 ^ (w * n) := by
  obtain ⟨h1, h2, _, _, h5⟩ := abs_cond_spec w m wp up 1 hm (Nat.le_refl 1) n hu
  refine ⟨h1, ?_⟩
  have hW := valueAt_lt w _ h1 wp n
  have hU := valueAt_lt w m hm up n
  show valueAt w (abs_cond_loop w m wp up n 1).1 wp n = _
  rcases Nat.eq_zero_or_pos w with hw | hw
  · subst hw
    simp only [Nat.zero_mul, Nat.pow_zero, Nat.mod_one] at hW ⊢
    omega
  · have h5 := h5 hw rfl
    generalize abs_cond_loop w m wp up n 1 = s at h1 h2 h5 hW ⊢
    have hP : 0 < 2 ^ (w * n) := Nat.two_pow_pos _
    generalize 2 ^ (w * n) = P at h5 hW hU hP ⊢
    have hc : s.2 = 0 ∨ s.2 = 1 := by omega
    rcases hc with hc | hc <;> rw [hc] at h5
    · have e : P - valueAt w m up n = valueAt w s.1 wp n := by omega
      rw [e, Nat.mod_eq_of_lt hW]
    · have e1 : valueAt w m up n = 0 := by omega
      have e2 : valueAt w s.1 wp n = 0 := by omega
      rw [e1, e2, Nat.sub_zero, Nat.mod_self]

theorem neg_neg_mod (P u : Nat) (hu : u < P) : (P - (P - u) % P) % P = u := by
  rcases Nat.eq_zero_or_pos u with h | h
  · subst h
    rw [Nat.sub_zero, Nat.mod_self, Nat.sub_zero, Nat.mod_self]
  · have e : (P - u) % P = P - u := Nat.mod_eq_of_lt (by omega)
    rw [e]
    have e2 : P - (P - u) = u := by omega
    rw [e2]
    exact Nat.mod_eq_of_lt hu

/-- C11: the enabled conditional negation is an involution: for an `n`-limb
array `U`, `_gcry_mpih_abs_cond` with `op_enable = 1` from `U` into `W`,
followed by `_gcry_mpih_abs_cond` with `op_enable = 1` from `W` into `W2`,
leaves in `W2` the original `U` limb for limb; each destination is its source
itself or does not start inside it. -/
theorem abs_cond_twice (w : Nat) (m : Mem) (wp2 wp up n : Nat) (hm : LimbsOk w m)
    (hu : wp ≤ up ∨ up + n ≤ wp) (hw : wp2 ≤ wp ∨ wp + n ≤ wp2) :
    limbs (_gcry_mpih_abs_cond w (_gcry_mpih_abs_cond w m wp up n 1) wp2 wp n 1) wp2 n =
      limbs m up n := by
  obtain ⟨h1, h2⟩ := abs_cond_enabled_value w m wp up n hm hu
  obtain ⟨h3, h4⟩ := abs_cond_enabled_value w _ wp2 wp n h1 hw
  apply limbs_eq_of_valueAt_eq w _ _ _ _ h3 hm
  rw [h4, h2]
  exact neg_neg_mod _ _ (valueAt_lt w m hm up n)

/-- Witness of C11 on 64-bit limbs, both calls in place on `U = [5, 0]` at
address 0. -/
theorem abs_cond_twice_witness :
    limbs (_gcry_mpih_abs_cond 64 (_gcry_mpih_abs_cond 64 (memOfList [5, 0]) 0 0 2 1)
      0 0 2 1) 0 2 = limbs (memOfList [5, 0]) 0 2 :=
  abs_cond_twice 64 (memOfList [5, 0]) 0 0 0 2
    (LimbsOk_memOfList 64 _ (by decide)) (by decide) (by decide)

/-- C16: the reduction step of `_gcry_mpih_mod` is a conditional subtraction:
for `n`-limb arrays `R` and `U` that do not overlap, `_gcry_mpih_sub_n` of `U`
from `R` in place followed by `_gcry_mpih_add_n_cond (R, R, U, n, borrow)`
leaves `value R - value U` when `value R ≥ value U`, and the original `R`,
limb for limb, when `value R < value U`. -/
theorem sub_then_add_back (w : Nat) (m : Mem) (rp up n : Nat) (hm : LimbsOk w m)
    (hU : up + n ≤ rp ∨ rp + n ≤ up) :
    (valueAt w m up n ≤ valueAt w m rp n →
      valueAt w (_gcry_mpih_add_n_cond w (_gcry_mpih_sub_n w m rp rp up n).1 rp rp up n
        (_gcry_mpih_sub_n w m rp rp up n).2).1 rp n = valueAt w m rp n - valueAt w m up n) ∧
    (valueAt w m rp n < valueAt w m up n →
      valueAt w (_gcry_mpih_add_n_cond w (_gcry_mpih_sub_n w m rp rp up n).1 rp rp up n
        (_gcry_mpih_sub_n w m rp rp up n).2).1 rp n = valueAt w m rp n ∧
      limbs (_gcry_mpih_add_n_cond w (_gcry_mpih_sub_n w m rp rp up n).1 rp rp up n
        (_gcry_mpih_sub_n w m rp rp up n).2).1 rp n = limbs m rp n) := by
  have hr_lt := valueAt_lt w m hm rp n
  have hu_lt := valueAt_lt w m hm up n
  unfold _gcry_mpih_sub_n
  dsimp only
  rw [Nat.mul_comm n w, Nat.mod_eq_of_lt hu_lt]
  have hR3 := valueAt_storeValue w m rp n (valueAt w m rp n + 2 ^ (w * n) - valueAt w m up n)
  have hok3 := LimbsOk_storeValue w m rp n
    (valueAt w m rp n + 2 ^ (w * n) - valueAt w m up n) hm
  have hfr3 := storeValue_read_out w m rp n
    (valueAt w m rp n + 2 ^ (w * n) - valueAt w m up n)
  generalize storeValue w m rp n (valueAt w m rp n + 2 ^ (w * n) - valueAt w m up n) = m3
    at hR3 hok3 hfr3 ⊢
  have hu3 : valueAt w m3 up n = valueAt w m up n :=
    valueAt_congr w m3 m up up n (fun k hk => hfr3 (up + k) (by omega))
  have hf : (if valueAt w m rp n < valueAt w m up n then 1 else 0) ≤ 1 := by
    split_ifs <;> decide
  obtain ⟨a1, a2, a3, a4⟩ := add_n_cond_spec w m3 rp rp up
    (if valueAt w m rp n < valueAt w m up n then 1 else 0) hok3 hf
    n (Or.inl (Nat.le_refl rp)) (Or.inr (by omega))
  have ha_lt := valueAt_lt w _ a1 rp n
  rw [hR3, hu3] at a4
  generalize _gcry_mpih_add_n_cond w m3 rp rp up n
    (if valueAt w m rp n < valueAt w m up n then 1 else 0) = r at a1 a2 a3 a4 ha_lt ⊢
  have h2 := mod_of_lt_two_mul (2 ^ (w * n))
    (valueAt w m rp n + 2 ^ (w * n) - valueAt w m up n) (by omega)
  have hc : r.2 = 0 ∨ r.2 = 1 := by omega
  have key : valueAt w r.1 rp n =
      if valueAt w m rp n < valueAt w m up n then valueAt w m rp n
      else valueAt w m rp n - valueAt w m up n := by
    generalize 2 ^ (w * n) = N at *
    split_ifs at a4 ⊢ with hlt <;> rcases hc with hc | hc <;> rw [hc] at a4 <;>
      rcases h2 with ⟨h2a, h2b⟩ | ⟨h2a, h2b⟩ <;> rw [h2b] at a4 <;> omega
  refine ⟨fun hge => ?_, fun hlt => ?_⟩
  · rw [key, if_neg (by omega)]
  · have e : valueAt w r.1 rp n = valueAt w m rp n := by rw [key, if_pos hlt]
    exact ⟨e, limbs_eq_of_valueAt_eq w _ _ _ _ a1 hm n e⟩

/-- Witness of C16 on 64-bit limbs: `R = [3, 0]` at address 0 and `U = [5, 0]`
at address 2, a subtraction that underflows. -/
theorem sub_then_add_back_witness :
    (valueAt 64 (memOfList [3, 0, 5, 0]) 2 2 ≤ valueAt 64 (memOfList [3, 0, 5, 0]) 0 2 →
      valueAt 64 (_gcry_mpih_add_n_cond 64
        (_gcry_mpih_sub_n 64 (memOfList [3, 0, 5, 0]) 0 0 2 2).1 0 0 2 2
        (_gcry_mpih_sub_n 64 (memOfList [3, 0, 5, 0]) 0 0 2 2).2).1 0 2 =
        valueAt 64 (memOfList [3, 0, 5, 0]) 0 2 - valueAt 64 (memOfList [3, 0, 5, 0]) 2 2) ∧
    (valueAt 64 (memOfList [3, 0, 5, 0]) 0 2 < valueAt 64 (memOfList [3, 0, 5, 0]) 2 2 →
      valueAt 64 (_gcry_mpih_add_n_cond 64
        (_gcry_mpih_sub_n 64 (memOfList [3, 0, 5, 0]) 0 0 2 2).1 0 0 2 2
        (_gcry_mpih_sub_n 64 (memOfList [3, 0, 5, 0]) 0 0 2 2).2).1 0 2 =
        valueAt 64 (memOfList [3, 0, 5, 0]) 0 2 ∧
      limbs (_gcry_mpih_add_n_cond 64
        (_gcry_mpih_sub_n 64 (memOfList [3, 0, 5, 0]) 0 0 2 2).1 0 0 2 2
        (_gcry_mpih_sub_n 64 (memOfList [3, 0, 5, 0]) 0 0 2 2).2).1 0 2 =
        limbs (memOfList [3, 0, 5, 0]) 0 2) :=
  sub_then_add_back 64 (memOfList [3, 0, 5, 0]) 0 2 2
    (LimbsOk_memOfList 64 _ (by decide)) (by decide)

/-- C17: aliasing: for `n`-limb arrays `U` and `V` (where `U` does not start
inside `V`) and a flag that is 0 or 1, `_gcry_mpih_add_n_cond` and
`_gcry_mpih_sub_n_cond` called in place, with `U` itself as destination, leave
in `U` the same limbs and return the same carry or borrow as the call with a
separate destination `W` (one that starts inside neither `U` nor `V`); with
flag 0 the shared buffer keeps its limbs. -/
theorem add_sub_n_cond_in_place (w : Nat) (m : Mem) (wp up vp n f : Nat) (hm : LimbsOk w m)
    (hf : f ≤ 1) (hv : up ≤ vp ∨ vp + n ≤ up)
    (hwu : wp ≤ up ∨ up + n ≤ wp) (hwv : wp ≤ vp ∨ vp + n ≤ wp) :
    (limbs (_gcry_mpih_add_n_cond w m up up vp n f).1 up n =
        limbs (_gcry_mpih_add_n_cond w m wp up vp n f).1 wp n ∧
      (_gcry_mpih_add_n_cond w m up up vp n f).2 =
        (_gcry_mpih_add_n_cond w m wp up vp n f).2) ∧
    (limbs (_gcry_mpih_sub_n_cond w m up up vp n f).1 up n =
        limbs (_gcry_mpih_sub_n_cond w m wp up vp n f).1 wp n ∧
      (_gcry_mpih_sub_n_cond w m up up vp n f).2 =
        (_gcry_mpih_sub_n_cond w m wp up vp n f).2) ∧
    limbs (_gcry_mpih_add_n_cond w m up up vp n 0).1 up n = limbs m up n ∧
    limbs (_gcry_mpih_sub_n_cond w m up up vp n 0).1 up n = limbs m up n := by
  have hU := valueAt_lt w m hm up n
  refine ⟨?_, ?_, ?_, ?_⟩
  · obtain ⟨a1, _, _, a4⟩ :=
      add_n_cond_spec w m up up vp f hm hf n (Or.inl (Nat.le_refl up)) (Or.inr hv)
    obtain ⟨b1, _, _, b4⟩ := add_n_cond_spec w m wp up vp f hm hf n hwu (Or.inr hwv)
    obtain ⟨e1, e2⟩ := add_mul_cancel _ _ _ _ _ (valueAt_lt w _ a1 up n)
      (valueAt_lt w _ b1 wp n) (a4.trans b4.symm)
    exact ⟨limbs_eq_of_valueAt_eq w _ _ _ _ a1 b1 n e1, e2⟩
  · obtain ⟨a1, _, _, a4⟩ :=
      sub_n_cond_spec w m up up vp f hm hf n (Or.inl (Nat.le_refl up)) (Or.inr hv)
    obtain ⟨b1, _, _, b4⟩ := sub_n_cond_spec w m wp up vp f hm hf n hwu (Or.inr hwv)
    have h : valueAt w (_gcry_mpih_sub_n_cond w m up up vp n f).1 up n +
        (_gcry_mpih_sub_n_cond w m wp up vp n f).2 * 2 ^ (w * n) =
        valueAt w (_gcry_mpih_sub_n_cond w m wp up vp n f).1 wp n +
        (_gcry_mpih_sub_n_cond w m up up vp n f).2 * 2 ^ (w * n) := by
      omega
    obtain ⟨e1, e2⟩ := add_mul_cancel _ _ _ _ _ (valueAt_lt w _ a1 up n)
      (valueAt_lt w _ b1 wp n) h
    exact ⟨limbs_eq_of_valueAt_eq w _ _ _ _ a1 b1 n e1, e2.symm⟩
  · obtain ⟨a1, a2, _, a4⟩ := add_n_cond_spec w m up up vp 0 hm (Nat.zero_le 1) n
      (Or.inl (Nat.le_refl up)) (Or.inl rfl)
    rw [Nat.zero_mul, Nat.add_zero] at a4
    have h : valueAt w (_gcry_mpih_add_n_cond w m up up vp n 0).1 up n +
        (_gcry_mpih_add_n_cond w m up up vp n 0).2 * 2 ^ (w * n) =
        valueAt w m up n + 0 * 2 ^ (w * n) := by
      rw [a4, Nat.zero_mul, Nat.add_zero]
    exact limbs_eq_of_valueAt_eq w _ _ _ _ a1 hm n
      (add_mul_cancel _ _ _ _ _ (valueAt_lt w _ a1 up n) hU h).1
  · obtain ⟨a1, a2, _, a4⟩ := sub_n_cond_spec w m up up vp 0 hm (Nat.zero_le 1) n
      (Or.inl (Nat.le_refl up)) (Or.inl rfl)
    rw [Nat.zero_mul, Nat.add_zero] at a4
    have h : valueAt w (_gcry_mpih_sub_n_cond w m up up vp n 0).1 up n + 0 * 2 ^ (w * n) =
        valueAt w m up n + (_gcry_mpih_sub_n_cond w m up up vp n 0).2 * 2 ^ (w * n) := by
      rw [Nat.zero_mul, Nat.add_zero, a4]
    exact limbs_eq_of_valueAt_eq w _ _ _ _ a1 hm n
      (add_mul_cancel _ _ _ _ _ (valueAt_lt w _ a1 up n) hU h).1

/-- Witness of C17 on 64-bit limbs: `U = [2^64 - 1, 1]` at address 0,
`V = [1, 2^64 - 1]` at address 2, the separate destination at address 4 and
flag 1. -/
theorem add_sub_n_cond_in_place_witness :
    (limbs (_gcry_mpih_add_n_cond 64 (memOfList [2 ^ 64 - 1, 1, 1, 2 ^ 64 - 1])
          0 0 2 2 1).1 0 2 =
        limbs (_gcry_mpih_add_n_cond 64 (memOfList [2 ^ 64 - 1, 1, 1, 2 ^ 64 - 1])
          4 0 2 2 1).1 4 2 ∧
      (_gcry_mpih_add_n_cond 64 (memOfList [2 ^ 64 - 1, 1, 1, 2 ^ 64 - 1]) 0 0 2 2 1).2 =
        (_gcry_mpih_add_n_cond 64 (memOfList [2 ^ 64 - 1, 1, 1, 2 ^ 64 - 1]) 4 0 2 2 1).2) ∧
    (limbs (_gcry_mpih_sub_n_cond 64 (memOfList [2 ^ 64 - 1, 1, 1, 2 ^ 64 - 1])
          0 0 2 2 1).1 0 2 =
        limbs (_gcry_mpih_sub_n_cond 64 (memOfList [2 ^ 64 - 1, 1, 1, 2 ^ 64 - 1])
          4 0 2 2 1).1 4 2 ∧
      (_gcry_mpih_sub_n_cond 64 (memOfList [2 ^ 64 - 1, 1, 1, 2 ^ 64 - 1]) 0 0 2 2 1).2 =
        (_gcry_mpih_sub_n_cond 64 (memOfList [2 ^ 64 - 1, 1, 1, 2 ^ 64 - 1]) 4 0 2 2 1).2) ∧
    limbs (_gcry_mpih_add_n_cond 64 (memOfList [2 ^ 64 - 1, 1, 1, 2 ^ 64 - 1])
      0 0 2 2 0).1 0 2 = limbs (memOfList [2 ^ 64 - 1, 1, 1, 2 ^ 64 - 1]) 0 2 ∧
    limbs (_gcry_mpih_sub_n_cond 64 (memOfList [2 ^ 64 - 1, 1, 1, 2 ^ 64 - 1])
      0 0 2 2 0).1 0 2 = limbs (memOfList [2 ^ 64 - 1, 1, 1, 2 ^ 64 - 1]) 0 2 :=
  add_sub_n_cond_in_place 64 (memOfList [2 ^ 64 - 1, 1, 1, 2 ^ 64 - 1]) 4 0 2 2 1
    (LimbsOk_memOfList 64 _ (by decide)) (by decide) (by decide) (by decide) (by decide)

theorem pos_width_of_pos_value (w : Nat) (m : Mem) (p n : Nat) (hm : LimbsOk w m)
    (hpos : 0 < valueAt w m p n) : 0 < w ∧ 0 < n := by
  have h := valueAt_lt w m hm p n
  constructor
  · rcases Nat.eq_zero_or_pos w with h0 | h0
    · subst h0
      simp only [Nat.zero_mul, Nat.pow_zero] at h
      omega
    · exact h0
  · rcases Nat.eq_zero_or_pos n with h0 | h0
    · subst h0
      rw [valueAt_zero] at hpos
      exact absurd hpos (Nat.lt_irrefl 0)
    · exact h0

/-- C19: range invariant of `_gcry_mpih_mod`: for every `V` and every `U` with
`value U > 0`, with a result buffer that overlaps neither, the running
remainder `R` is below `value U` after every number `k` of loop iterations,
and so is the returned result, whether or not the one-bit left shift of `R`
overflows its `usize` limbs. -/
theorem mpih_mod_remainder_lt (w : Nat) (m : Mem) (rp vp vsize up usize : Nat)
    (hm : LimbsOk w m) (hU : up + usize ≤ rp ∨ rp + usize ≤ up)
    (hV : vp + vsize ≤ rp ∨ rp + usize ≤ vp) (hpos : 0 < valueAt w m up usize) :
    (∀ k, k ≤ vsize * w →
      valueAt w (forLoop (mod_loop_body w rp vp vsize up usize) (MPN_ZERO m rp usize) k)
        rp usize < valueAt w m up usize) ∧
    valueAt w (_gcry_mpih_mod w m rp vp vsize up usize) rp usize < valueAt w m up usize := by
  obtain ⟨hw, hn⟩ := pos_width_of_pos_value w m up usize hm hpos
  have h : ∀ k, k ≤ vsize * w →
      valueAt w (forLoop (mod_loop_body w rp vp vsize up usize) (MPN_ZERO m rp usize) k)
        rp usize < valueAt w m up usize := by
    intro k hk
    rw [(mod_loop_spec w m rp vp vsize up usize hw hn hm hU hV k hk).2.2]
    exact modVal_lt _ _ _ _ hpos k
  exact ⟨h, h (vsize * w) (Nat.le_refl _)⟩

/-- Witness of C19 on 64-bit limbs, at an input on which the shift overflows:
`V = [0, 1]` at address 0, `U = [2^64 - 1]` at address 2 and the result buffer
at address 3. -/
theorem mpih_mod_remainder_lt_witness :
    (∀ k, k ≤ 2 * 64 →
      valueAt 64 (forLoop (mod_loop_body 64 3 0 2 2 1)
        (MPN_ZERO (memOfList [0, 1, 2 ^ 64 - 1]) 3 1) k) 3 1 <
        valueAt 64 (memOfList [0, 1, 2 ^ 64 - 1]) 2 1) ∧
    valueAt 64 (_gcry_mpih_mod 64 (memOfList [0, 1, 2 ^ 64 - 1]) 3 0 2 2 1) 3 1 <
      valueAt 64 (memOfList [0, 1, 2 ^ 64 - 1]) 2 1 :=
  mpih_mod_remainder_lt 64 (memOfList [0, 1, 2 ^ 64 - 1]) 3 0 2 2 1
    (LimbsOk_memOfList 64 _ (by decide)) (by decide) (by decide) (by decide)

/-- C20: sufficient condition for `_gcry_mpih_mod`: for every `V` and every
`U` with `0 < value U ≤ 2 ^ (usize * w - 1)`, with a result buffer that
overlaps neither, the result is `value V mod value U`, and after `k` loop
iterations the running remainder is the number made of the `k` most
significant bits of `V` (that is `value V / 2 ^ (vsize * w - k)`) modulo
`value U`. -/
theorem mpih_mod_correct_of_small (w : Nat) (m : Mem) (rp vp vsize up usize : Nat)
    (hm : LimbsOk w m) (hU : up + usize ≤ rp ∨ rp + usize ≤ up)
    (hV : vp + vsize ≤ rp ∨ rp + usize ≤ vp) (hpos : 0 < valueAt w m up usize)
    (hsmall : valueAt w m up usize ≤ 2 ^ (usize * w - 1)) :
    valueAt w (_gcry_mpih_mod w m rp vp vsize up usize) rp usize =
      valueAt w m vp vsize % valueAt w m up usize ∧
    (∀ k, k ≤ vsize * w →
      valueAt w (forLoop (mod_loop_body w rp vp vsize up usize) (MPN_ZERO m rp usize) k)
        rp usize =
        (valueAt w m vp vsize / 2 ^ (vsize * w - k)) % valueAt w m up usize) := by
  obtain ⟨hw, hn⟩ := pos_width_of_pos_value w m up usize hm hpos
  have hpow : 2 * 2 ^ (usize * w - 1) = 2 ^ (w * usize) := by
    have h1 : 0 < usize * w := Nat.mul_pos hn hw
    have h2 : usize * w - 1 + 1 = w * usize := by rw [Nat.mul_comm w usize]; omega
    rw [← h2, Nat.pow_succ, Nat.mul_comm]
  have h2u : 2 * valueAt w m up usize ≤ 2 ^ (w * usize) := by omega
  have hv := valueAt_lt w m hm vp vsize
  rw [Nat.mul_comm w vsize] at hv
  refine ⟨mpih_mod_small_modulus w m rp vp vsize up usize hw hm hU hV hpos h2u, ?_⟩
  intro k hk
  rw [(mod_loop_spec w m rp vp vsize up usize hw hn hm hU hV k hk).2.2]
  exact modVal_correct _ _ _ _ hpos h2u hv k hk

/-- Witness of C20 on 64-bit limbs: `V = [802, 7]` at address 0, the modulus
`U = [2^63]` (the largest one allowed) at address 2 and the result buffer at
address 3. -/
theorem mpih_mod_correct_of_small_witness :
    valueAt 64 (_gcry_mpih_mod 64 (memOfList [802, 7, 2 ^ 63]) 3 0 2 2 1) 3 1 =
      valueAt 64 (memOfList [802, 7, 2 ^ 63]) 0 2 % valueAt 64 (memOfList [802, 7, 2 ^ 63]) 2 1 ∧
    (∀ k, k ≤ 2 * 64 →
      valueAt 64 (forLoop (mod_loop_body 64 3 0 2 2 1)
        (MPN_ZERO (memOfList [802, 7, 2 ^ 63]) 3 1) k) 3 1 =
        (valueAt 64 (memOfList [802, 7, 2 ^ 63]) 0 2 / 2 ^ (2 * 64 - k)) %
          valueAt 64 (memOfList [802, 7, 2 ^ 63]) 2 1) :=
  mpih_mod_correct_of_small 64 (memOfList [802, 7, 2 ^ 63]) 3 0 2 2 1
    (LimbsOk_memOfList 64 _ (by decide)) (by decide) (by decide) (by decide) (by decide)

/-! ## The comparison `_gcry_mpih_cmp_ui` -/

theorem land_bit (r b : Nat) (hr : r ≤ 1) (hb : b ≤ 1) :
    r &&& b ≤ 1 ∧ (r &&& b = 1 ↔ r = 1 ∧ b = 1) := by
  have h1 : r = 0 ∨ r = 1 := by omega
  have h2 : b = 0 ∨ b = 1 := by omega
  rcases h1 with h1 | h1 <;> rcases h2 with h2 | h2 <;> subst h1 <;> subst h2 <;> decide

/-- The flag `is_all_zero` after the loop of `_gcry_mpih_cmp_ui` is 0 or 1,
and it is 1 exactly when the limbs `up[1], ..., up[n-1]` are all zero. -/
theorem cmp_ui_loop_spec (m : Mem) (up n : Nat) :
    forLoopFrom (fun i (is_all_zero : Nat) =>
      is_all_zero &&& (if m (up + i) = 0 then 1 else 0)) 1 1 n ≤ 1 ∧
    (forLoopFrom (fun i (is_all_zero : Nat) =>
      is_all_zero &&& (if m (up + i) = 0 then 1 else 0)) 1 1 n = 1 ↔
      ∀ i, 1 ≤ i → i < n → m (up + i) = 0) := by
  induction n with
  | zero =>
    refine ⟨Nat.le_refl 1, fun _ i _ hi => absurd hi (Nat.not_lt_zero i), fun _ => rfl⟩
  | succ n ih =>
    obtain ⟨h1, h2⟩ := ih
    show (if 1 ≤ n then _ else 1) ≤ 1 ∧ ((if 1 ≤ n then _ else 1) = 1 ↔ _)
    split_ifs with hn
    · generalize forLoopFrom (fun i (is_all_zero : Nat) =>
        is_all_zero &&& (if m (up + i) = 0 then 1 else 0)) 1 1 n = r at h1 h2 ⊢
      have hb : (if m (up + n) = 0 then 1 else 0) ≤ 1 := by split_ifs <;> decide
      obtain ⟨l1, l2⟩ := land_bit r _ h1 hb
      refine ⟨l1, ?_⟩
      rw [l2, h2]
      constructor
      · rintro ⟨ha, hb2⟩ i hi1 hi2
        rcases Nat.lt_or_ge i n with h | h
        · exact ha i hi1 h
        · have : i = n := by omega
          subst this
          by_contra hne
          rw [if_neg hne] at hb2
          exact absurd hb2 (by decide)
      · intro h
        exact ⟨fun i hi1 hi2 => h i hi1 (by omega), by rw [if_pos (h n hn (by omega))]⟩
    · refine ⟨Nat.le_refl 1, fun _ i hi1 hi2 => ?_, fun _ => rfl⟩
      omega

/-- C13: for every limb array that has a nonzero limb at some index `j` with
`1 ≤ j < usize` and for every scalar `v`, `_gcry_mpih_cmp_ui` returns exactly
1, whatever `up[0]` and `v` are (and whatever the widths of the C types). -/
theorem cmp_ui_high_limb (w lw iw : Nat) (m : Mem) (up usize v j : Nat) (h1 : 1 ≤ j)
    (h2 : j < usize) (hne : m (up + j) ≠ 0) :
    _gcry_mpih_cmp_ui w lw iw m up usize v = 1 := by
  obtain ⟨l1, l2⟩ := cmp_ui_loop_spec m up usize
  unfold _gcry_mpih_cmp_ui
  dsimp only
  generalize forLoopFrom (fun i (is_all_zero : Nat) =>
    is_all_zero &&& (if m (up + i) = 0 then 1 else 0)) 1 1 usize = r at l1 l2 ⊢
  have hr : r ≠ 1 := fun h => hne (l2.mp h j h1 h2)
  have hr0 : r = 0 := by omega
  rw [if_neg (by rw [hr0]; exact fun h => h rfl)]

/-- Witness of C13 on 64-bit limbs: the array `[0, 0, 3]` against `v = 7`. -/
theorem cmp_ui_high_limb_witness :
    _gcry_mpih_cmp_ui 64 64 32 (memOfList [0, 0, 3]) 0 3 7 = 1 :=
  cmp_ui_high_limb 64 64 32 (memOfList [0, 0, 3]) 0 3 7 2 (by decide) (by decide) (by decide)

/-- C12 (the code departs from it): with 64-bit limbs, a 64-bit
`unsigned long` and a 32-bit `int`, the one-limb array `[2^32]` against
`v = 0` gives 0 although the array does not equal `v`, and the one-limb array
`[2^31]` against `v = 0` gives a negative value although the array exceeds
`v`; with 32-bit limbs and a 32-bit `unsigned long` the latter still happens.
The examples of the claim itself come out right: 5 against 5 gives 0 and 9
against 5 gives 4. -/
theorem cmp_ui_difference_truncated :
    _gcry_mpih_cmp_ui 64 64 32 (memOfList [2 ^ 32]) 0 1 0 = 0 ∧
    valueAt 64 (memOfList [2 ^ 32]) 0 1 ≠ 0 ∧
    _gcry_mpih_cmp_ui 64 64 32 (memOfList [2 ^ 31]) 0 1 0 < 0 ∧
    0 < valueAt 64 (memOfList [2 ^ 31]) 0 1 ∧
    _gcry_mpih_cmp_ui 32 32 32 (memOfList [2 ^ 31]) 0 1 0 < 0 ∧
    0 < valueAt 32 (memOfList [2 ^ 31]) 0 1 ∧
    _gcry_mpih_cmp_ui 64 64 32 (memOfList [5]) 0 1 5 = 0 ∧
    _gcry_mpih_cmp_ui 64 64 32 (memOfList [9]) 0 1 5 = 4 := by
  decide

/-! ## Version check of global.c -/

/-- The comparison of `gcry_check_version` on the numbers that
`parse_version_string` has stored: with a `NULL` request the version string is
returned unchecked; when `VERSION` parses as `(a, b, c)` with patchlevel `p`
and the request as `(a2, b2, c2)` with patchlevel `p2`, the version string is
returned exactly when `(a, b, c)` is lexicographically greater than
`(a2, b2, c2)`, or equal to it with `strcmp (p, p2) ≥ 0`, and `NULL`
otherwise; when either string does not parse, `NULL` is returned. -/
theorem check_version_of_parse (iw : Nat) (ver : List Char) :
    gcry_check_version iw ver none = some ver ∧
    (∀ req a b c p a2 b2 c2 p2,
      parse_version_string iw ver = some (a, b, c, p) →
      parse_version_string iw req = some (a2, b2, c2, p2) →
      (gcry_check_version iw ver (some req) = some ver ↔
        (toLex (a2, toLex (b2, c2)) < toLex (a, toLex (b, c)) ∨
          ((a, b, c) = (a2, b2, c2) ∧ 0 ≤ strcmp p p2))) ∧
      (gcry_check_version iw ver (some req) ≠ some ver →
        gcry_check_version iw ver (some req) = none)) ∧
    (∀ req, parse_version_string iw ver = none ∨ parse_version_string iw req = none →
      gcry_check_version iw ver (some req) = none) := by
  refine ⟨rfl, ?_, ?_⟩
  · intro req a b c p a2 b2 c2 p2 hv hr
    simp only [gcry_check_version, hv, hr, Prod.Lex.lt_iff, Prod.mk.injEq]
    constructor
    · constructor
      · intro h
        split_ifs at h with hc
        · rcases hc with hc | hc | hc | hc
          · exact Or.inl (Or.inl hc)
          · exact Or.inl (Or.inr ⟨hc.1.symm, Or.inl hc.2⟩)
          · exact Or.inl (Or.inr ⟨hc.1.symm, Or.inr ⟨hc.2.1.symm, hc.2.2⟩⟩)
          · exact Or.inr ⟨⟨hc.1, hc.2.1, hc.2.2.1⟩, hc.2.2.2⟩
      · intro h
        rw [if_pos]
        rcases h with (h | ⟨h1, h | ⟨h2, h3⟩⟩) | ⟨⟨h1, h2, h3⟩, h4⟩
        · exact Or.inl h
        · exact Or.inr (Or.inl ⟨h1.symm, h⟩)
        · exact Or.inr (Or.inr (Or.inl ⟨h1.symm, h2.symm, h3⟩))
        · exact Or.inr (Or.inr (Or.inr ⟨h1, h2, h3, h4⟩))
    · intro h
      split_ifs at h ⊢ with hc
      · exact absurd rfl h
      · rfl
  · intro req h
    rcases h with h | h
    · simp only [gcry_check_version, h]
    · unfold gcry_check_version
      dsimp only
      rw [h]
      cases parse_version_string iw ver with
      | none => rfl
      | some x => rfl

/-- The loop of `parse_version_number` consumes a run of digits and stops in
front of a character that is not a digit (or at the end of the string). -/
theorem parse_digits_spec (iw : Nat) (s : List Char) :
    ∀ val v rest, parse_digits iw s val = (v, rest) →
      ∃ ds, s = ds ++ rest ∧ (∀ c ∈ ds, isdigit c = true) ∧ isdigit (deref rest) = false := by
  induction s with
  | nil =>
    intro val v rest h
    have h2 : rest = [] := (congrArg Prod.snd h).symm
    refine ⟨[], by rw [h2]; rfl, fun c hc => absurd hc (List.not_mem_nil c), ?_⟩
    rw [h2]
    decide
  | cons c cs ih =>
    intro val v rest h
    by_cases hd : isdigit c = true
    · have e : parse_digits iw (c :: cs) val =
          parse_digits iw cs (wrap_int iw (wrap_int iw (val * 10) + ((c.toNat : Int) - 48))) := by
        show (if isdigit c = true then _ else _) = _
        rw [if_pos hd]
      rw [e] at h
      obtain ⟨ds, h1, h2, h3⟩ := ih _ v rest h
      refine ⟨c :: ds, by rw [h1]; rfl, ?_, h3⟩
      intro x hx
      rcases List.mem_cons.mp hx with hx | hx
      · rw [hx]; exact hd
      · exact h2 x hx
    · have e : parse_digits iw (c :: cs) val = (val, c :: cs) := by
        show (if isdigit c = true then _ else _) = _
        rw [if_neg hd]
      rw [e] at h
      have h2 : rest = c :: cs := (congrArg Prod.snd h).symm
      refine ⟨[], by rw [h2]; rfl, fun x hx => absurd hx (List.not_mem_nil x), ?_⟩
      rw [h2]
      exact Bool.eq_false_iff.mpr hd

/-- When `parse_version_number` succeeds, what it has consumed is a run of
digits, possibly empty, without a leading zero, and what follows does not
start with a digit. -/
theorem parse_version_number_spec (iw : Nat) (s : List Char) (n : Int) (rest : List Char)
    (h : parse_version_number iw s = some (n, rest)) :
    ∃ ds, s = ds ++ rest ∧ IsVersionNumber ds ∧ isdigit (deref rest) = false := by
  unfold parse_version_number at h
  dsimp only at h
  split_ifs at h with h1 h2
  have h3 : parse_digits iw s 0 = (n, rest) := Option.some.inj h
  obtain ⟨ds, e, hd, hr⟩ := parse_digits_spec iw s 0 n rest h3
  refine ⟨ds, e, ⟨hd, ?_⟩, hr⟩
  rintro ⟨c, cs, hds⟩
  apply h1
  rw [e, hds]
  exact ⟨rfl, hd c (by rw [hds]; simp)⟩

theorem deref_dot (s : List Char) (h : ¬ deref s ≠ '.') : s = '.' :: s.tail := by
  cases s with
  | nil => exact absurd (show deref [] ≠ '.' by decide) h
  | cons c cs =>
    have : c = '.' := not_not.mp h
    rw [this]
    rfl

/-- When `parse_version_string` succeeds, the string has the form
`<major>.<minor>.<micro>` followed by a suffix. -/
theorem parse_version_string_form (iw : Nat) (s : List Char)
    (x : Int × Int × Int × List Char) (h : parse_version_string iw s = some x) :
    VersionForm s := by
  unfold parse_version_string at h
  cases h1 : parse_version_number iw s with
  | none => rw [h1] at h; exact absurd h (by simp)
  | some r1 =>
    obtain ⟨major, s1⟩ := r1
    rw [h1] at h
    dsimp only at h
    split_ifs at h with hd1
    cases h2 : parse_version_number iw s1.tail with
    | none => rw [h2] at h; exact absurd h (by simp)
    | some r2 =>
      obtain ⟨minor, s2⟩ := r2
      rw [h2] at h
      dsimp only at h
      split_ifs at h with hd2
      cases h3 : parse_version_number iw s2.tail with
      | none => rw [h3] at h; exact absurd h (by simp)
      | some r3 =>
        obtain ⟨micro, s3⟩ := r3
        obtain ⟨d1, e1, n1, _⟩ := parse_version_number_spec iw s major s1 h1
        obtain ⟨d2, e2, n2, _⟩ := parse_version_number_spec iw s1.tail minor s2 h2
        obtain ⟨d3, e3, n3, hs3⟩ := parse_version_number_spec iw s2.tail micro s3 h3
        refine ⟨d1, d2, d3, s3, n1, n2, n3, hs3, ?_⟩
        rw [← e3, ← deref_dot s2 hd2, ← e2, ← deref_dot s1 hd1, ← e1]

theorem check_version_none_of_parse (iw : Nat) (ver req : List Char)
    (h : parse_version_string iw req = none) :
    gcry_check_version iw ver (some req) = none := by
  unfold gcry_check_version
  dsimp only
  rw [h]
  cases parse_version_string iw ver with
  | none => rfl
  | some x => rfl

theorem check_version_none_of_form (iw : Nat) (ver req : List Char)
    (h : ¬ VersionForm ver ∨ ¬ VersionForm req) :
    gcry_check_version iw ver (some req) = none := by
  apply (check_version_of_parse iw ver).2.2
  rcases h with h | h
  · left
    cases hp : parse_version_string iw ver with
    | none => rfl
    | some x => exact absurd (parse_version_string_form iw ver x hp) h
  · right
    cases hp : parse_version_string iw req with
    | none => rfl
    | some x => exact absurd (parse_version_string_form iw req x hp) h

/-- A string splits in one way only into a run of digits and a rest that does
not start with a digit. -/
theorem digit_run_unique (d : List Char) :
    ∀ (d2 s s2 : List Char), (∀ c ∈ d, isdigit c = true) → (∀ c ∈ d2, isdigit c = true) →
      isdigit (deref s) = false → isdigit (deref s2) = false → d ++ s = d2 ++ s2 →
      d = d2 ∧ s = s2 := by
  induction d with
  | nil =>
    intro d2 s s2 _ hd2 hs _ h
    cases d2 with
    | nil => exact ⟨rfl, h⟩
    | cons c cs =>
      have e : s = c :: (cs ++ s2) := h
      rw [e] at hs
      have hc : isdigit c = true := hd2 c (List.mem_cons_self c cs)
      have hs2 : isdigit c = false := hs
      rw [hc] at hs2
      exact absurd hs2 (by decide)
  | cons a as ih =>
    intro d2 s s2 hd hd2 hs hs2 h
    cases d2 with
    | nil =>
      have e : s2 = a :: (as ++ s) := h.symm
      rw [e] at hs2
      have hc : isdigit a = true := hd a (List.mem_cons_self a as)
      have hs3 : isdigit a = false := hs2
      rw [hc] at hs3
      exact absurd hs3 (by decide)
    | cons c cs =>
      have h1 : a = c := List.head_eq_of_cons_eq h
      have h2 : as ++ s = cs ++ s2 := List.tail_eq_of_cons_eq h
      obtain ⟨e1, e2⟩ := ih cs s s2 (fun x hx => hd x (List.mem_cons_of_mem a hx))
        (fun x hx => hd2 x (List.mem_cons_of_mem c hx)) hs hs2 h2
      exact ⟨by rw [h1, e1], e2⟩

/-- The three numbers and the suffix of a string of the form
`<major>.<minor>.<micro>` followed by a suffix are determined by the string. -/
theorem version_form_unique (d1 d2 d3 p e1 e2 e3 q : List Char)
    (hd1 : ∀ c ∈ d1, isdigit c = true) (hd2 : ∀ c ∈ d2, isdigit c = true)
    (hd3 : ∀ c ∈ d3, isdigit c = true) (hp : isdigit (deref p) = false)
    (he1 : ∀ c ∈ e1, isdigit c = true) (he2 : ∀ c ∈ e2, isdigit c = true)
    (he3 : ∀ c ∈ e3, isdigit c = true) (hq : isdigit (deref q) = false)
    (h : d1 ++ '.' :: (d2 ++ '.' :: (d3 ++ p)) = e1 ++ '.' :: (e2 ++ '.' :: (e3 ++ q))) :
    d1 = e1 ∧ d2 = e2 ∧ d3 = e3 ∧ p = q := by
  have hdot : ∀ t : List Char, isdigit (deref ('.' :: t)) = false := fun t => by
    show isdigit '.' = false
    decide
  obtain ⟨a1, r1⟩ := digit_run_unique d1 e1 _ _ hd1 he1 (hdot _) (hdot _) h
  obtain ⟨a2, r2⟩ := digit_run_unique d2 e2 _ _ hd2 he2 (hdot _) (hdot _)
    (List.tail_eq_of_cons_eq r1)
  obtain ⟨a3, r3⟩ := digit_run_unique d3 e3 _ _ hd3 he3 hp hq (List.tail_eq_of_cons_eq r2)
  exact ⟨a1, a2, a3, r3⟩

/-- C18 as stated fails: the request `..` is not of the form
`<major>.<minor>.<micro>` with three non-empty numbers, and neither is `1..2`,
yet `gcry_check_version` of a library with `VERSION` 1.1.3 does not answer
`NULL` to them: the empty runs of digits are read as 0. -/
theorem check_version_accepts_empty_numbers :
    ¬ StrictVersionForm ['.', '.'] ∧
    gcry_check_version 32 ['1', '.', '1', '.', '3'] (some ['.', '.']) =
      some ['1', '.', '1', '.', '3'] ∧
    parse_version_string 32 ['.', '.'] = some (0, 0, 0, []) ∧
    gcry_check_version 32 ['1', '.', '1', '.', '3'] (some ['1', '.', '.', '2']) =
      some ['1', '.', '1', '.', '3'] ∧
    parse_version_string 32 ['1', '.', '.', '2'] = some (1, 0, 2, []) := by
  refine ⟨?_, by decide, by decide, by decide, by decide⟩
  rintro ⟨d1, d2, d3, suffix, ⟨⟨hd, _⟩, hne⟩, _, _, h⟩
  cases d1 with
  | nil => exact hne rfl
  | cons c cs =>
    have hc : c = '.' := by
      have := congrArg List.head? h
      simp at this
      exact this.symm
    have := hd c (by simp)
    rw [hc] at this
    exact absurd this (by decide)

/-- C18, amended: `gcry_check_version` returns `NULL` for every requested
version string that is not of the form `<major>.<minor>.<micro>` followed by
an optional patchlevel suffix, where each of the three numbers is a run of
decimal digits, possibly empty, without a leading zero (the third number being
the whole run of digits after the second dot); this for every library version
and every width of `int`. -/
theorem check_version_rejects_malformed (iw : Nat) (ver req : List Char)
    (h : ¬ VersionForm req) : gcry_check_version iw ver (some req) = none := by
  apply check_version_none_of_parse
  cases hp : parse_version_string iw req with
  | none => rfl
  | some x => exact absurd (parse_version_string_form iw req x hp) h

/-- Witness of the amended C18: the requests `01.2.3`, whose first number has
a leading zero, and `1.1.03`, whose third number has one, against a library
with `VERSION` 1.1.3. -/
theorem check_version_rejects_malformed_witness :
    gcry_check_version 32 ['1', '.', '1', '.', '3'] (some ['0', '1', '.', '2', '.', '3']) =
      none ∧
    gcry_check_version 32 ['1', '.', '1', '.', '3'] (some ['1', '.', '1', '.', '0', '3']) =
      none :=
  ⟨check_version_rejects_malformed 32 ['1', '.', '1', '.', '3']
    ['0', '1', '.', '2', '.', '3']
    (by
      rintro ⟨d1, d2, d3, suffix, n1, n2, n3, hs, h⟩
      obtain ⟨e1, _, _, _⟩ := version_form_unique ['0', '1'] ['2'] ['3'] [] d1 d2 d3 suffix
        (by decide) (by decide) (by decide) (by decide) n1.1 n2.1 n3.1 hs h
      exact n1.2 ⟨'1', [], e1.symm⟩),
   check_version_rejects_malformed 32 ['1', '.', '1', '.', '3']
    ['1', '.', '1', '.', '0', '3']
    (by
      rintro ⟨d1, d2, d3, suffix, n1, n2, n3, hs, h⟩
      obtain ⟨_, _, e3, _⟩ := version_form_unique ['1'] ['1'] ['0', '3'] [] d1 d2 d3 suffix
        (by decide) (by decide) (by decide) (by decide) n1.1 n2.1 n3.1 hs h
      exact n3.2 ⟨'3', [], e3.symm⟩)⟩

theorem isdigit_toNat (c : Char) (h : isdigit c = true) : 48 ≤ c.toNat ∧ c.toNat ≤ 57 := by
  unfold isdigit at h
  rw [decide_eq_true_eq] at h
  obtain ⟨h1, h2⟩ := h
  have h1b : ('0' : Char).toNat ≤ c.toNat := h1
  have h2b : c.toNat ≤ ('9' : Char).toNat := h2
  exact ⟨h1b, h2b⟩

theorem wrap_int_of_fit (iw : Nat) (hiw : 0 < iw) (x : Nat) (h : x < 2 ^ (iw - 1)) :
    wrap_int iw (x : Int) = (x : Int) := by
  have hp : 2 ^ iw = 2 * 2 ^ (iw - 1) := by
    rw [← pow_succ']
    congr 1
    omega
  have hlt : x < 2 ^ iw := by omega
  have e1 : ((x : Int) % 2 ^ iw).toNat = x := by
    have : ((x : Int) % 2 ^ iw) = ((x % 2 ^ iw : Nat) : Int) := by
      push_cast
      rfl
    rw [this, Nat.mod_eq_of_lt hlt]
    rfl
  unfold wrap_int
  rw [e1]
  unfold to_int
  rw [Nat.mod_eq_of_lt hlt, if_pos h]

theorem decimal_foldl_ge (ds : List Char) :
    ∀ v : Nat, v ≤ ds.foldl (fun v c => 10 * v + (c.toNat - 48)) v := by
  induction ds with
  | nil => intro v; exact le_refl v
  | cons c cs ih =>
    intro v
    have := ih (10 * v + (c.toNat - 48))
    simp only [List.foldl_cons]
    omega

theorem parse_digits_nondigit (iw : Nat) (rest : List Char) (val : Int)
    (h : isdigit (deref rest) = false) : parse_digits iw rest val = (val, rest) := by
  cases rest with
  | nil => rfl
  | cons c cs =>
    have hc : isdigit c = false := h
    show (if isdigit c = true then _ else _) = _
    rw [if_neg (by rw [hc]; decide)]

/-- On a run of digits that stands for a number below `2 ^ (iw - 1)`, followed
by something that does not start with a digit, the loop of
`parse_version_number` computes that number and stops after the run. -/
theorem parse_digits_of_fit (iw : Nat) (hiw : 0 < iw) (rest : List Char)
    (hrest : isdigit (deref rest) = false) (ds : List Char) :
    ∀ v : Nat, (∀ c ∈ ds, isdigit c = true) →
      ds.foldl (fun v c => 10 * v + (c.toNat - 48)) v < 2 ^ (iw - 1) →
      parse_digits iw (ds ++ rest) (v : Int) =
        (((ds.foldl (fun v c => 10 * v + (c.toNat - 48)) v : Nat) : Int), rest) := by
  induction ds with
  | nil =>
    intro v _ _
    exact parse_digits_nondigit iw rest _ hrest
  | cons c cs ih =>
    intro v hd hfit
    have hc : isdigit c = true := hd c (List.mem_cons_self c cs)
    have hcs : ∀ x ∈ cs, isdigit x = true := fun x hx => hd x (List.mem_cons_of_mem c hx)
    simp only [List.foldl_cons] at hfit ⊢
    have hge := decimal_foldl_ge cs (10 * v + (c.toNat - 48))
    have hr := isdigit_toNat c hc
    have e1 : wrap_int iw ((v : Int) * 10) = ((v * 10 : Nat) : Int) := by
      have := wrap_int_of_fit iw hiw (v * 10) (by omega)
      rw [← this]
      push_cast
      rfl
    have e2 : wrap_int iw (((v * 10 : Nat) : Int) + ((c.toNat : Int) - 48)) =
        ((10 * v + (c.toNat - 48) : Nat) : Int) := by
      have := wrap_int_of_fit iw hiw (10 * v + (c.toNat - 48)) (by omega)
      rw [← this]
      congr 1
      omega
    have e : parse_digits iw (c :: cs ++ rest) (v : Int) =
        parse_digits iw (cs ++ rest)
          (wrap_int iw (wrap_int iw ((v : Int) * 10) + ((c.toNat : Int) - 48))) := by
      show (if isdigit c = true then _ else _) = _
      rw [if_pos hc]
      rfl
    rw [e, e1, e2]
    exact ih _ hcs hfit

/-- On a number without a leading zero that is below `2 ^ (iw - 1)`, followed
by something that does not start with a digit, `parse_version_number` stores
that number and returns the pointer to what follows. -/
theorem parse_version_number_of_fit (iw : Nat) (hiw : 0 < iw) (d rest : List Char)
    (hd : IsVersionNumber d) (hrest : isdigit (deref rest) = false)
    (hfit : decimalValue d < 2 ^ (iw - 1)) :
    parse_version_number iw (d ++ rest) = some ((decimalValue d : Int), rest) := by
  have hz : ¬ (deref (d ++ rest) = '0' ∧ isdigit (deref (d ++ rest).tail) = true) := by
    rintro ⟨h1, h2⟩
    rcases d with _ | ⟨a, _ | ⟨b, cs⟩⟩
    · have h3 : deref rest = '0' := h1
      rw [h3] at hrest
      exact absurd hrest (by decide)
    · have h3 : isdigit (deref rest) = true := h2
      rw [h3] at hrest
      exact absurd hrest (by decide)
    · have h3 : a = '0' := h1
      exact hd.2 ⟨b, cs, by rw [h3]⟩
  have hp := parse_digits_of_fit iw hiw rest hrest d 0 hd.1 hfit
  unfold parse_version_number
  rw [if_neg hz]
  dsimp only
  have hp2 : parse_digits iw (d ++ rest) 0 = ((decimalValue d : Int), rest) := hp
  rw [hp2, if_neg (by simp)]

theorem parse_version_string_of_writes (iw : Nat) (hiw : 0 < iw) (s : List Char)
    (a b c : Nat) (p : List Char) (h : WritesVersion s a b c p)
    (ha : a < 2 ^ (iw - 1)) (hb : b < 2 ^ (iw - 1)) (hc : c < 2 ^ (iw - 1)) :
    parse_version_string iw s = some ((a : Int), (b : Int), (c : Int), p) := by
  obtain ⟨d1, d2, d3, n1, n2, n3, hp, hs, e1, e2, e3⟩ := h
  subst e1 e2 e3
  have hdot : ∀ t : List Char, isdigit (deref ('.' :: t)) = false := fun t => by
    show isdigit '.' = false
    decide
  have p1 := parse_version_number_of_fit iw hiw d1 _ n1 (hdot (d2 ++ '.' :: (d3 ++ p))) ha
  have p2 := parse_version_number_of_fit iw hiw d2 _ n2 (hdot (d3 ++ p)) hb
  have p3 := parse_version_number_of_fit iw hiw d3 p n3 hp hc
  have hne : ∀ t : List Char, ¬ deref ('.' :: t) ≠ '.' := fun t h => h rfl
  unfold parse_version_string
  rw [hs, p1]
  dsimp only
  rw [if_neg (hne _), List.tail_cons, p2]
  dsimp only
  rw [if_neg (hne _), List.tail_cons, p3]

theorem bind_fst {α β : Type} (x : Traced α) (f : α → Traced β) :
    (x >>= f).1 = (f x.1).1 := rfl

theorem bind_snd {α β : Type} (x : Traced α) (f : α → Traced β) :
    (x >>= f).2 = x.2 ++ (f x.1).2 := rfl

/-- Two sequences have the same trace when their first parts do and their
second parts do whatever the intermediate results are. -/
theorem bind_snd_congr {α β γ δ : Type} (x : Traced α) (y : Traced γ) (f : α → Traced β)
    (g : γ → Traced δ) (h1 : x.2 = y.2) (h2 : ∀ a b, (f a).2 = (g b).2) :
    (x >>= f).2 = (y >>= g).2 := by
  rw [bind_snd, bind_snd, h1, h2 x.1 y.1]

/-- Two sequences with the same first part have the same trace when their
second parts do on the result of the first. -/
theorem bind_snd_congr_same {α β γ : Type} (x : Traced α) (f : α → Traced β)
    (g : α → Traced γ) (h : (f x.1).2 = (g x.1).2) : (x >>= f).2 = (x >>= g).2 := by
  rw [bind_snd, bind_snd, h]

theorem forLoopT_fst {σ : Type} (body : Nat → σ → Traced σ) (s : σ) (n : Nat) :
    (forLoopT body s n).1 = forLoop (fun i s => (body i s).1) s n := by
  induction n with
  | zero => rfl
  | succ n ih =>
    show (body n (forLoopT body s n).1).1 = (body n (forLoop (fun i s => (body i s).1) s n)).1
    rw [ih]

theorem forT_fst {σ : Type} (body : Nat → σ → Traced σ) (s : σ) (n : Nat) :
    (forT body s n).1 = forLoop (fun i s => (body i s).1) s n :=
  forLoopT_fst body s n

theorem forLoopT_snd_congr {σ τ : Type} (body : Nat → σ → Traced σ)
    (body2 : Nat → τ → Traced τ) (s : σ) (s2 : τ)
    (h : ∀ i x y, (body i x).2 = (body2 i y).2) (n : Nat) :
    (forLoopT body s n).2 = (forLoopT body2 s2 n).2 := by
  induction n with
  | zero => rfl
  | succ n ih =>
    show (forLoopT body s n).2 ++ ([Op.alu Alu.lt] ++ ([Op.branch true] ++
        ((body n (forLoopT body s n).1).2 ++ ([Op.alu Alu.add] ++ [])))) =
      (forLoopT body2 s2 n).2 ++ ([Op.alu Alu.lt] ++ ([Op.branch true] ++
        ((body2 n (forLoopT body2 s2 n).1).2 ++ ([Op.alu Alu.add] ++ []))))
    rw [ih, h n (forLoopT body s n).1 (forLoopT body2 s2 n).1]

/-- The trace of a loop depends only on the number of iterations and on the
traces of its bodies. -/
theorem forT_snd_congr {σ τ : Type} (body : Nat → σ → Traced σ)
    (body2 : Nat → τ → Traced τ) (s : σ) (s2 : τ)
    (h : ∀ i x y, (body i x).2 = (body2 i y).2) (n : Nat) :
    (forT body s n).2 = (forT body2 s2 n).2 := by
  show (forLoopT body s n).2 ++ ([Op.alu Alu.lt] ++ ([Op.branch false] ++ [])) =
    (forLoopT body2 s2 n).2 ++ ([Op.alu Alu.lt] ++ ([Op.branch false] ++ []))
  rw [forLoopT_snd_congr body body2 s s2 h n]

theorem set_cond_tr_fst (w : Nat) (m : Mem) (wp up n f : Nat) :
    (_gcry_mpih_set_cond_tr w m wp up n f).1 = _gcry_mpih_set_cond w m wp up n f := by
  unfold _gcry_mpih_set_cond_tr _gcry_mpih_set_cond
  rw [bind_fst, forT_fst]
  rfl

theorem set_cond_tr_snd (w : Nat) (m m2 : Mem) (wp up n f f2 : Nat) :
    (_gcry_mpih_set_cond_tr w m wp up n f).2 = (_gcry_mpih_set_cond_tr w m2 wp up n f2).2 := by
  unfold _gcry_mpih_set_cond_tr
  refine bind_snd_congr _ _ _ _ rfl (fun a b => ?_)
  apply forT_snd_congr
  intro i x y
  repeat (refine bind_snd_congr _ _ _ _ rfl (fun _ _ => ?_))
  rfl

theorem add_n_cond_tr_fst (w : Nat) (m : Mem) (wp up vp n f : Nat) :
    (_gcry_mpih_add_n_cond_tr w m wp up vp n f).1 = _gcry_mpih_add_n_cond w m wp up vp n f := by
  unfold _gcry_mpih_add_n_cond_tr _gcry_mpih_add_n_cond
  rw [bind_fst, forT_fst]
  rfl

theorem add_n_cond_tr_snd (w : Nat) (m m2 : Mem) (wp up vp n f f2 : Nat) :
    (_gcry_mpih_add_n_cond_tr w m wp up vp n f).2 =
      (_gcry_mpih_add_n_cond_tr w m2 wp up vp n f2).2 := by
  unfold _gcry_mpih_add_n_cond_tr
  refine bind_snd_congr _ _ _ _ rfl (fun a b => ?_)
  apply forT_snd_congr
  intro i x y
  repeat (refine bind_snd_congr _ _ _ _ rfl (fun _ _ => ?_))
  rfl

theorem sub_n_cond_tr_fst (w : Nat) (m : Mem) (wp up vp n f : Nat) :
    (_gcry_mpih_sub_n_cond_tr w m wp up vp n f).1 = _gcry_mpih_sub_n_cond w m wp up vp n f := by
  unfold _gcry_mpih_sub_n_cond_tr _gcry_mpih_sub_n_cond
  rw [bind_fst, forT_fst]
  rfl

theorem sub_n_cond_tr_snd (w : Nat) (m m2 : Mem) (wp up vp n f f2 : Nat) :
    (_gcry_mpih_sub_n_cond_tr w m wp up vp n f).2 =
      (_gcry_mpih_sub_n_cond_tr w m2 wp up vp n f2).2 := by
  unfold _gcry_mpih_sub_n_cond_tr
  refine bind_snd_congr _ _ _ _ rfl (fun a b => ?_)
  apply forT_snd_congr
  intro i x y
  repeat (refine bind_snd_congr _ _ _ _ rfl (fun _ _ => ?_))
  rfl

theorem swap_cond_tr_fst (w : Nat) (m : Mem) (up vp n f : Nat) :
    (_gcry_mpih_swap_cond_tr w m up vp n f).1 = _gcry_mpih_swap_cond w m up vp n f := by
  unfold _gcry_mpih_swap_cond_tr _gcry_mpih_swap_cond
  rw [bind_fst, forT_fst]
  rfl

theorem swap_cond_tr_snd (w : Nat) (m m2 : Mem) (up vp n f f2 : Nat) :
    (_gcry_mpih_swap_cond_tr w m up vp n f).2 =
      (_gcry_mpih_swap_cond_tr w m2 up vp n f2).2 := by
  unfold _gcry_mpih_swap_cond_tr
  refine bind_snd_congr _ _ _ _ rfl (fun a b => ?_)
  apply forT_snd_congr
  intro i x y
  repeat (refine bind_snd_congr _ _ _ _ rfl (fun _ _ => ?_))
  rfl

theorem abs_cond_tr_fst (w : Nat) (m : Mem) (wp up n f : Nat) :
    (_gcry_mpih_abs_cond_tr w m wp up n f).1 = _gcry_mpih_abs_cond w m wp up n f := by
  unfold _gcry_mpih_abs_cond_tr _gcry_mpih_abs_cond abs_cond_loop
  rw [bind_fst, bind_fst, forT_fst]
  rfl

theorem abs_cond_tr_snd (w : Nat) (m m2 : Mem) (wp up n f f2 : Nat) :
    (_gcry_mpih_abs_cond_tr w m wp up n f).2 =
      (_gcry_mpih_abs_cond_tr w m2 wp up n f2).2 := by
  unfold _gcry_mpih_abs_cond_tr
  refine bind_snd_congr _ _ _ _ rfl (fun a b => ?_)
  refine bind_snd_congr _ _ _ _ ?_ (fun a b => rfl)
  apply forT_snd_congr
  intro i x y
  repeat (refine bind_snd_congr _ _ _ _ rfl (fun _ _ => ?_))
  rfl

theorem MPN_ZERO_tr_fst (m : Mem) (d n : Nat) : (MPN_ZERO_tr m d n).1 = MPN_ZERO m d n := by
  unfold MPN_ZERO_tr MPN_ZERO
  rw [forT_fst]
  rfl

theorem MPN_ZERO_tr_snd (m m2 : Mem) (d n : Nat) :
    (MPN_ZERO_tr m d n).2 = (MPN_ZERO_tr m2 d n).2 := by
  unfold MPN_ZERO_tr
  apply forT_snd_congr
  intro i x y
  rfl

theorem mod_loop_body_tr_fst (w rp vp vsize up usize i : Nat) (m : Mem) :
    (mod_loop_body_tr w rp vp vsize up usize i m).1 =
      mod_loop_body w rp vp vsize up usize i m := by
  unfold mod_loop_body_tr mod_loop_body
  simp only [bind_fst]
  rw [add_n_cond_tr_fst]
  rfl

theorem mod_tr_fst (w : Nat) (m : Mem) (rp vp vsize up usize : Nat) :
    (_gcry_mpih_mod_tr w m rp vp vsize up usize).1 = _gcry_mpih_mod w m rp vp vsize up usize := by
  unfold _gcry_mpih_mod_tr _gcry_mpih_mod
  simp only [bind_fst]
  rw [forT_fst, MPN_ZERO_tr_fst]
  have e : (fun i s => (mod_loop_body_tr w rp vp vsize up usize i s).1) =
      mod_loop_body w rp vp vsize up usize := by
    funext i s
    exact mod_loop_body_tr_fst w rp vp vsize up usize i s
  rw [e]
  rfl

theorem erase_outcomes_append (a b : List Op) :
    erase_outcomes (a ++ b) = erase_outcomes a ++ erase_outcomes b := by
  induction a with
  | nil => rfl
  | cons o t ih =>
    cases o with
    | load x => show Op.load x :: erase_outcomes (t ++ b) = _; rw [ih]; rfl
    | store x => show Op.store x :: erase_outcomes (t ++ b) = _; rw [ih]; rfl
    | alu x => show Op.alu x :: erase_outcomes (t ++ b) = _; rw [ih]; rfl
    | branch x => show Op.branch true :: erase_outcomes (t ++ b) = _; rw [ih]; rfl
    | call x y => show Op.call x y :: erase_outcomes (t ++ b) = _; rw [ih]; rfl

/-- Two sequences execute the same operations, the outcomes of the
conditionals left aside, when their first parts do and their second parts do
whatever the intermediate results are. -/
theorem bind_erase_congr {α β γ δ : Type} (x : Traced α) (y : Traced γ) (f : α → Traced β)
    (g : γ → Traced δ) (h1 : erase_outcomes x.2 = erase_outcomes y.2)
    (h2 : ∀ a b, erase_outcomes (f a).2 = erase_outcomes (g b).2) :
    erase_outcomes (x >>= f).2 = erase_outcomes (y >>= g).2 := by
  rw [bind_snd, bind_snd, erase_outcomes_append, erase_outcomes_append, h1, h2 x.1 y.1]

theorem bind_erase_congr_same {α β γ : Type} (x : Traced α) (f : α → Traced β)
    (g : α → Traced γ) (h : erase_outcomes (f x.1).2 = erase_outcomes (g x.1).2) :
    erase_outcomes (x >>= f).2 = erase_outcomes (x >>= g).2 := by
  rw [bind_snd, bind_snd, erase_outcomes_append, erase_outcomes_append, h]

theorem forLoopT_erase_congr {σ τ : Type} (body : Nat → σ → Traced σ)
    (body2 : Nat → τ → Traced τ) (s : σ) (s2 : τ)
    (h : ∀ i x y, erase_outcomes (body i x).2 = erase_outcomes (body2 i y).2) (n : Nat) :
    erase_outcomes (forLoopT body s n).2 = erase_outcomes (forLoopT body2 s2 n).2 := by
  induction n with
  | zero => rfl
  | succ n ih =>
    show erase_outcomes ((forLoopT body s n).2 ++ ([Op.alu Alu.lt] ++ ([Op.branch true] ++
        ((body n (forLoopT body s n).1).2 ++ ([Op.alu Alu.add] ++ []))))) =
      erase_outcomes ((forLoopT body2 s2 n).2 ++ ([Op.alu Alu.lt] ++ ([Op.branch true] ++
        ((body2 n (forLoopT body2 s2 n).1).2 ++ ([Op.alu Alu.add] ++ [])))))
    simp only [erase_outcomes_append]
    rw [ih, h n (forLoopT body s n).1 (forLoopT body2 s2 n).1]

/-- The operations a loop executes, the outcomes of the conditionals left
aside, depend only on the number of iterations and on the operations its
bodies execute. -/
theorem forT_erase_congr {σ τ : Type} (body : Nat → σ → Traced σ)
    (body2 : Nat → τ → Traced τ) (s : σ) (s2 : τ)
    (h : ∀ i x y, erase_outcomes (body i x).2 = erase_outcomes (body2 i y).2) (n : Nat) :
    erase_outcomes (forT body s n).2 = erase_outcomes (forT body2 s2 n).2 := by
  show erase_outcomes ((forLoopT body s n).2 ++ ([Op.alu Alu.lt] ++ ([Op.branch false] ++ []))) =
    erase_outcomes ((forLoopT body2 s2 n).2 ++ ([Op.alu Alu.lt] ++ ([Op.branch false] ++ [])))
  simp only [erase_outcomes_append]
  rw [forLoopT_erase_congr body body2 s s2 h n]

/-- One iteration of the loop of `_gcry_mpih_mod` executes the same
operations, the outcome of its conditional expression left aside, whatever
the memory holds. -/
theorem mod_loop_body_tr_erase (w rp vp vsize up usize i : Nat) (m m2 : Mem) :
    erase_outcomes (mod_loop_body_tr w rp vp vsize up usize i m).2 =
      erase_outcomes (mod_loop_body_tr w rp vp vsize up usize i m2).2 := by
  unfold mod_loop_body_tr
  iterate 14 (first
    | refine bind_erase_congr_same _ _ _ ?_
    | refine bind_erase_congr _ _ _ _ rfl (fun _ _ => ?_))
  refine bind_erase_congr _ _ _ _
    (congrArg erase_outcomes (add_n_cond_tr_snd w _ _ rp rp up usize _ _)) (fun _ _ => ?_)
  rfl

theorem mod_tr_erase (w : Nat) (m m2 : Mem) (rp vp vsize up usize : Nat) :
    erase_outcomes (_gcry_mpih_mod_tr w m rp vp vsize up usize).2 =
      erase_outcomes (_gcry_mpih_mod_tr w m2 rp vp vsize up usize).2 := by
  unfold _gcry_mpih_mod_tr
  refine bind_erase_congr_same _ _ _ ?_
  refine bind_erase_congr_same _ _ _ ?_
  refine bind_erase_congr _ _ _ _
    (congrArg erase_outcomes (MPN_ZERO_tr_snd m m2 rp usize)) (fun _ _ => ?_)
  refine bind_erase_congr_same _ _ _ ?_
  apply forT_erase_congr
  intro i x y
  exact mod_loop_body_tr_erase w rp vp vsize up usize i x y

/-- Two sequences have the same trace when their first parts do and their
second parts do on the results of the first parts. -/
theorem bind_snd_congr_at {α β γ δ : Type} (x : Traced α) (y : Traced γ) (f : α → Traced β)
    (g : γ → Traced δ) (h1 : x.2 = y.2) (h2 : (f x.1).2 = (g y.1).2) :
    (x >>= f).2 = (y >>= g).2 := by
  rw [bind_snd, bind_snd, h1, h2]

theorem bind_snd_congr_val {α β γ : Type} (x y : Traced α) (f : α → Traced β)
    (g : α → Traced γ) (hx : x = y) (h : (f y.1).2 = (g y.1).2) :
    (x >>= f).2 = (y >>= g).2 := by
  rw [hx, bind_snd, bind_snd, h]

theorem t_load_congr (m m2 : Mem) (a : Nat) (h : m a = m2 a) : t_load m a = t_load m2 a := by
  unfold t_load
  rw [h]

theorem forLoopT_snd_congr_at {σ τ : Type} (body : Nat → σ → Traced σ)
    (body2 : Nat → τ → Traced τ) (s : σ) (s2 : τ) (n : Nat)
    (h : ∀ i, i < n →
      (body i (forLoopT body s i).1).2 = (body2 i (forLoopT body2 s2 i).1).2) :
    (forLoopT body s n).2 = (forLoopT body2 s2 n).2 := by
  induction n with
  | zero => rfl
  | succ n ih =>
    show (forLoopT body s n).2 ++ ([Op.alu Alu.lt] ++ ([Op.branch true] ++
        ((body n (forLoopT body s n).1).2 ++ ([Op.alu Alu.add] ++ [])))) =
      (forLoopT body2 s2 n).2 ++ ([Op.alu Alu.lt] ++ ([Op.branch true] ++
        ((body2 n (forLoopT body2 s2 n).1).2 ++ ([Op.alu Alu.add] ++ []))))
    rw [ih (fun i hi => h i (Nat.lt_succ_of_lt hi)), h n (Nat.lt_succ_self n)]

/-- Two loops of the same number of iterations have the same trace when their
bodies do in the states the loops go through. -/
theorem forT_snd_congr_at {σ τ : Type} (body : Nat → σ → Traced σ)
    (body2 : Nat → τ → Traced τ) (s : σ) (s2 : τ) (n : Nat)
    (h : ∀ i, i < n →
      (body i (forLoopT body s i).1).2 = (body2 i (forLoopT body2 s2 i).1).2) :
    (forT body s n).2 = (forT body2 s2 n).2 := by
  show (forLoopT body s n).2 ++ ([Op.alu Alu.lt] ++ ([Op.branch false] ++ [])) =
    (forLoopT body2 s2 n).2 ++ ([Op.alu Alu.lt] ++ ([Op.branch false] ++ []))
  rw [forLoopT_snd_congr_at body body2 s s2 n h]

/-- One iteration of the loop of `_gcry_mpih_mod` has the same trace in two
memories that hold the same limb of `V` at the index examined. -/
theorem mod_loop_body_tr_snd_of_limb (w rp vp vsize up usize i : Nat) (m m2 : Mem)
    (h : m (vp + (vsize * w - 1 - i) / w) = m2 (vp + (vsize * w - 1 - i) / w)) :
    (mod_loop_body_tr w rp vp vsize up usize i m).2 =
      (mod_loop_body_tr w rp vp vsize up usize i m2).2 := by
  unfold mod_loop_body_tr
  iterate 5 refine bind_snd_congr_same _ _ _ ?_
  refine bind_snd_congr_val _ _ _ _ (t_load_congr m m2 _ h) ?_
  iterate 8 (first
    | refine bind_snd_congr_same _ _ _ ?_
    | refine bind_snd_congr _ _ _ _ rfl (fun _ _ => ?_))
  refine bind_snd_congr _ _ _ _ (add_n_cond_tr_snd w _ _ rp rp up usize _ _) (fun _ _ => ?_)
  rfl

/-- With `R` overlapping neither `U` nor `V`, the trace of `_gcry_mpih_mod` is
the same in two memories that hold the same limbs of `V`. -/
theorem mod_tr_snd_of_value (w : Nat) (m m2 : Mem) (rp vp vsize up usize : Nat) (hw : 0 < w)
    (hn : 0 < usize) (hm : LimbsOk w m) (hm2 : LimbsOk w m2)
    (hU : up + usize ≤ rp ∨ rp + usize ≤ up) (hV : vp + vsize ≤ rp ∨ rp + usize ≤ vp)
    (hagree : ∀ k, k < vsize → m (vp + k) = m2 (vp + k)) :
    (_gcry_mpih_mod_tr w m rp vp vsize up usize).2 =
      (_gcry_mpih_mod_tr w m2 rp vp vsize up usize).2 := by
  unfold _gcry_mpih_mod_tr
  refine bind_snd_congr_same _ _ _ ?_
  refine bind_snd_congr_same _ _ _ ?_
  refine bind_snd_congr_at _ _ _ _ (MPN_ZERO_tr_snd m m2 rp usize) ?_
  refine bind_snd_congr_same _ _ _ ?_
  apply forT_snd_congr_at
  intro i hi
  have hi2 : i < vsize * w := hi
  have e : (fun i s => (mod_loop_body_tr w rp vp vsize up usize i s).1) =
      mod_loop_body w rp vp vsize up usize := by
    funext i s
    exact mod_loop_body_tr_fst w rp vp vsize up usize i s
  rw [forLoopT_fst, forLoopT_fst, e, MPN_ZERO_tr_fst, MPN_ZERO_tr_fst]
  apply mod_loop_body_tr_snd_of_limb
  have hl : (vsize * w - 1 - i) / w < vsize := by
    rw [Nat.div_lt_iff_lt_mul hw]
    omega
  obtain ⟨_, f1, _⟩ := mod_loop_spec w m rp vp vsize up usize hw hn hm hU hV i (by omega)
  obtain ⟨_, f2, _⟩ := mod_loop_spec w m2 rp vp vsize up usize hw hn hm2 hU hV i (by omega)
  generalize (vsize * w - 1 - i) / w = l at hl ⊢
  rw [f1 (vp + l) (by omega), f2 (vp + l) (by omega)]
  exact hagree l hl

theorem erase_outcomes_length (t : List Op) : (erase_outcomes t).length = t.length := by
  induction t with
  | nil => rfl
  | cons o t ih =>
    cases o with
    | load x => show (Op.load x :: erase_outcomes t).length = _; simp [ih]
    | store x => show (Op.store x :: erase_outcomes t).length = _; simp [ih]
    | alu x => show (Op.alu x :: erase_outcomes t).length = _; simp [ih]
    | branch x => show (Op.branch true :: erase_outcomes t).length = _; simp [ih]
    | call x y => show (Op.call x y :: erase_outcomes t).length = _; simp [ih]

/-- When two runs of a loop of `n + 1` iterations have the same trace, and
their bodies execute the same operations whatever the state, the two last
iterations have the same trace. -/
theorem forT_snd_last {σ : Type} (body : Nat → σ → Traced σ) (s s2 : σ) (n : Nat)
    (he : ∀ i x y, erase_outcomes (body i x).2 = erase_outcomes (body i y).2)
    (h : (forT body s (n + 1)).2 = (forT body s2 (n + 1)).2) :
    (body n (forLoopT body s n).1).2 = (body n (forLoopT body s2 n).1).2 := by
  have d : ∀ s : σ, (forT body s (n + 1)).2 =
      ((forLoopT body s n).2 ++ ([Op.alu Alu.lt] ++ ([Op.branch true] ++
        ((body n (forLoopT body s n).1).2 ++ ([Op.alu Alu.add] ++ []))))) ++
      ([Op.alu Alu.lt] ++ ([Op.branch false] ++ [])) := fun _ => rfl
  rw [d s, d s2] at h
  have h1 := List.append_cancel_right h
  have hl : (forLoopT body s n).2.length = (forLoopT body s2 n).2.length := by
    rw [← erase_outcomes_length, ← erase_outcomes_length (forLoopT body s2 n).2,
      forLoopT_erase_congr body body s s2 he n]
  have h2 := (List.append_inj h1 hl).2
  have h3 := List.append_cancel_left (List.append_cancel_left h2)
  exact List.append_cancel_right h3

/-- When two runs of `_gcry_mpih_mod` have the same trace, the two last
iterations of the loop have the same trace. -/
theorem mod_tr_snd_last (w : Nat) (m m2 : Mem) (rp vp vsize up usize n : Nat)
    (hn : vsize * w = n + 1)
    (h : (_gcry_mpih_mod_tr w m rp vp vsize up usize).2 =
      (_gcry_mpih_mod_tr w m2 rp vp vsize up usize).2) :
    (mod_loop_body_tr w rp vp vsize up usize n
        (forLoop (mod_loop_body w rp vp vsize up usize) (MPN_ZERO m rp usize) n)).2 =
      (mod_loop_body_tr w rp vp vsize up usize n
        (forLoop (mod_loop_body w rp vp vsize up usize) (MPN_ZERO m2 rp usize) n)).2 := by
  have e : ∀ m : Mem, (_gcry_mpih_mod_tr w m rp vp vsize up usize).2 =
      [Op.call "_gcry_is_secure" [vp]] ++ ([Op.call "mpi_alloc_limb_space" [usize]] ++
        ((MPN_ZERO_tr m rp usize).2 ++ ([Op.alu Alu.mul] ++
          (forT (mod_loop_body_tr w rp vp vsize up usize) (MPN_ZERO_tr m rp usize).1
            (vsize * w)).2))) := fun _ => rfl
  rw [e m, e m2, MPN_ZERO_tr_snd m m2 rp usize, hn] at h
  have h1 := List.append_cancel_left (List.append_cancel_left (List.append_cancel_left
    (List.append_cancel_left h)))
  have h2 := forT_snd_last _ _ _ n
    (fun i x y => mod_loop_body_tr_erase w rp vp vsize up usize i x y) h1
  have e2 : (fun i s => (mod_loop_body_tr w rp vp vsize up usize i s).1) =
      mod_loop_body w rp vp vsize up usize := by
    funext i s
    exact mod_loop_body_tr_fst w rp vp vsize up usize i s
  rw [forLoopT_fst, forLoopT_fst, e2, MPN_ZERO_tr_fst, MPN_ZERO_tr_fst] at h2
  exact h2

/-- When two iterations of the loop of `_gcry_mpih_mod` have the same trace,
the conditional expression that yields `the_bit` has the same outcome in
both. -/
theorem mod_loop_body_tr_outcome (w rp vp vsize up usize i : Nat) (x y : Mem)
    (h : (mod_loop_body_tr w rp vp vsize up usize i x).2 =
      (mod_loop_body_tr w rp vp vsize up usize i y).2) :
    decide (x (vp + (vsize * w - 1 - i) / w) &&&
        ((1 <<< ((vsize * w - 1 - i) % w)) % 2 ^ w) ≠ 0) =
      decide (y (vp + (vsize * w - 1 - i) / w) &&&
        ((1 <<< ((vsize * w - 1 - i) % w)) % 2 ^ w) ≠ 0) := by
  have h2 := congrArg (fun t : List Op => branch_outcomes (List.take 9 t)) h
  exact List.head_eq_of_cons_eq h2

end Libgcrypt
